import Mathlib

/-!
Verification of the sparse-memory block-list engine of `cbytesparse`.

The repository ships the engine as a compiled Cython extension (`cbytesparse.c`)
whose source is not part of the Python tree; the tree contains the thin Python
wrappers (`src/cbytesparse/py.py`), the abstract declarations, and the test
suite (`src/tests/_common.py`).  The test suite carries an executable reference
semantics for every operation: it converts block lists to a flat list of
optional cell values (`blocks_to_values`), applies the corresponding plain list
splice, and converts back (`values_to_blocks`).  The definitions below model
the engine from the specification, following that reference semantics.

Addresses and byte values are modelled as `Nat` (the Cython engine uses
unsigned addresses: the test classes set `ADDR_NEG = False`).  A block is a
pair `(start, data)`; a memory is a block list plus the optional trimming
bounds.  Gaps are `none` cells.
-/

namespace CBytesparse

abbrev Value := Nat

abbrev Block := Nat × List Value

/-- Translated from `src/tests/_common.py::blocks_to_values` (the accumulator
is the current length of the produced list; Python pads with `None` up to each
block start and then appends the block data). -/
def b2vGo : List Block → Nat → List (Option Value)
  | [], _ => []
  | (s, d) :: rest, acc =>
      List.replicate (s - acc) none ++ d.map some ++ b2vGo rest (max acc s + d.length)

/-- Flat list of optional cell values of a block list, starting at address 0. -/
def blocks_to_values (bl : List Block) : List (Option Value) :=
  b2vGo bl 0

/-- Translated from `src/tests/_common.py::values_to_blocks`: one block per
maximal run of defined values (structural formulation: a defined head cell
either extends the block starting right after it or opens a fresh singleton
block). -/
def values_to_blocks : List (Option Value) → Nat → List Block
  | [], _ => []
  | none :: rest, off => values_to_blocks rest (off + 1)
  | some v :: rest, off =>
      match values_to_blocks rest (off + 1) with
      | [] => [(off, [v])]
      | (s, d) :: bs =>
          if s = off + 1 then (off, v :: d) :: bs else (off, [v]) :: (s, d) :: bs

/-- Value stored at an address by an ordered block list (`none` in a gap). -/
def blockPeek : List Block → Nat → Option Value
  | [], _ => none
  | (s, d) :: rest, a =>
      if a < s then none
      else if a < s + d.length then some (d.getD (a - s) 0)
      else blockPeek rest a

/-- Structural invariant of a block list (spec §3): every block nonempty, and
consecutive blocks strictly separated (no overlap, no touching). -/
def blocksOKb : List Block → Bool
  | [] => true
  | [b] => !b.2.isEmpty
  | b1 :: b2 :: rest =>
      !b1.2.isEmpty && decide (b1.1 + b1.2.length < b2.1) && blocksOKb (b2 :: rest)

/-- Memory engine state: the block list plus the optional trimming bounds
(spec §3 `bound_start` / `bound_endex`). -/
structure Memory where
  blocks : List Block
  bstart : Option Nat
  bendex : Option Nat
deriving DecidableEq, Repr

/-- Construction from a block list without a trimming window. -/
def Memory.from_blocks (bl : List Block) : Memory :=
  ⟨bl, none, none⟩

/-- Lower bound of the stored content (first block start, or 0 when empty). -/
def Memory.contentStart (m : Memory) : Nat :=
  match m.blocks.head? with
  | some b => b.1
  | none => 0

/-- Upper bound of the stored content (last block end, or 0 when empty). -/
def Memory.contentEndex (m : Memory) : Nat :=
  match m.blocks.getLast? with
  | some b => b.1 + b.2.length
  | none => 0

/-- Virtual start address: trim start when set, else the content start. -/
def Memory.start (m : Memory) : Nat :=
  m.bstart.getD m.contentStart

/-- Virtual end address: trim end when set, else the content end. -/
def Memory.endex (m : Memory) : Nat :=
  m.bendex.getD m.contentEndex

/-- Virtual span of the memory. -/
def Memory.span (m : Memory) : Nat × Nat :=
  (m.start, m.endex)

def Memory.values (m : Memory) : List (Option Value) :=
  blocks_to_values m.blocks

/-- Modelled from the spec: `peek(address)` (spec §4.2), value at an address
or `none` in a gap.  The Cython engine source is not in the tree. -/
def Memory.peek (m : Memory) (a : Nat) : Option Value :=
  blockPeek m.blocks a

/-- Memory whose content is the given cell list (anchored at address 0),
without a trimming window. -/
def mkMem (vs : List (Option Value)) : Memory :=
  ⟨values_to_blocks vs 0, none, none⟩

/-- Pad a cell list with trailing gap cells up to a given length. -/
def padTo (vs : List (Option Value)) (n : Nat) : List (Option Value) :=
  vs ++ List.replicate (n - vs.length) none

/-- Replace the cells at `[s, s + news.length)` (padding with gaps first). -/
def setRange (vs : List (Option Value)) (s : Nat) (news : List (Option Value)) :
    List (Option Value) :=
  let p := padTo vs (s + news.length)
  p.take s ++ news ++ p.drop (s + news.length)

/-- Cells of the span `[s, e)` (gap-padded; length is `e - s`). -/
def region (vs : List (Option Value)) (s e : Nat) : List (Option Value) :=
  ((padTo vs e).drop s).take (e - s)

/-- Cyclic repetition of a pattern, `n` cells long. -/
def tile (pat : List Value) (n : Nat) : List Value :=
  (List.range n).map fun i => pat.getD (i % pat.length) 0

/-- Modelled from the spec: `write(address, data)` (spec §4.2) overwrites
`[address, address + data.length)`; reference semantics
`values[start:endex] = data` in `src/tests/_common.py::test_write_template`. -/
def Memory.write (m : Memory) (a : Nat) (data : List Value) : Memory :=
  mkMem (setRange m.values a (data.map some))

/-- Modelled from the spec: `fill(start, endex, pattern)` (spec §4.2)
overwrites the whole range with the cyclically repeated pattern; reference
semantics `values[start:endex] = tiled` in `test_fill_template`. -/
def Memory.fill (m : Memory) (s e : Nat) (pat : List Value) : Memory :=
  mkMem (setRange m.values s ((tile pat (e - s)).map some))

/-- Modelled from the spec: `flood(start, endex, pattern)` (spec §4.2) writes
the cyclically repeated pattern only into the gap cells of the range;
reference semantics in `test_flood_template`. -/
def Memory.flood (m : Memory) (s e : Nat) (pat : List Value) : Memory :=
  mkMem (setRange m.values s
    (List.zipWith (fun o t => o <|> some t) (region m.values s e) (tile pat (e - s))))

/-- Modelled from the spec: `clear(start, endex)` (spec §4.2) removes the
content of the range without shifting anything. -/
def Memory.clear (m : Memory) (s e : Nat) : Memory :=
  mkMem (setRange m.values s (List.replicate (e - s) none))

/-- Modelled from the spec: `delete(start, endex)` (spec §4.2) removes the
range and shifts later content leftward; reference semantics
`del values[start:endex]` in `test_delete_template`. -/
def Memory.delete (m : Memory) (s e : Nat) : Memory :=
  mkMem (m.values.take s ++ m.values.drop (max s e))

/-- Modelled from the spec: `insert(address, data)` (spec §4.2) splices new
content in, shifting later content rightward; reference semantics
`values[start:start] = data` in `test_insert_template`. -/
def Memory.insert (m : Memory) (a : Nat) (data : List Value) : Memory :=
  mkMem ((padTo m.values a).take a ++ data.map some ++ (padTo m.values a).drop a)

/-- Modelled from the spec: `reserve(address, size)` (spec §4.2) inserts gap
cells, shifting later content rightward; reference semantics
`values[start:start] = [None] * size` in `test_reserve_template`. -/
def Memory.reserve (m : Memory) (a n : Nat) : Memory :=
  mkMem ((padTo m.values a).take a ++ List.replicate n none ++ (padTo m.values a).drop a)

/-- Modelled from the spec: `crop(start, endex)` (spec §4.2) removes
everything outside the range; reference semantics `values[:start] = None*;
values[endex:] = None*` in `test_crop_template`. -/
def Memory.crop (m : Memory) (s e : Nat) : Memory :=
  mkMem (List.replicate s none ++ region m.values s e)

/-- Modelled from the spec: `shift(offset)` (spec §4.2) translates every block
start (content unchanged); nonnegative offsets only, as the Cython engine uses
unsigned addresses (`ADDR_NEG = False` in `src/tests/test_c.py`). -/
def Memory.shift (m : Memory) (off : Nat) : Memory :=
  ⟨m.blocks.map fun b => (b.1 + off, b.2), m.bstart, m.bendex⟩

/-- Modelled from the spec: `poke(address, value_or_None)` (spec §4.2) sets or
clears exactly one cell. -/
def Memory.poke (m : Memory) (a : Nat) (v : Option Value) : Memory :=
  mkMem (setRange m.values a [v])

/-- Modelled from the spec: `append(value)` (spec §4.2) adds one cell
immediately after the current content end. -/
def Memory.append (m : Memory) (v : Value) : Memory :=
  mkMem (setRange m.values m.contentEndex [some v])

/-- Modelled from the spec: state after `pop(address)` (spec §4.2), which
removes the cell and shifts later content leftward; reference semantics
`del values[address]` in `test_pop_template`. -/
def Memory.pop (m : Memory) (a : Nat) : Memory :=
  mkMem (m.values.take a ++ m.values.drop (a + 1))

/-- Modelled from the spec: state after `popitem()` (spec §4.2), which removes
the last stored cell; reference semantics `values.pop()` in `test_popitem`. -/
def Memory.popitem (m : Memory) : Memory :=
  mkMem m.values.dropLast

/-- Modelled from the spec: `extract(start, endex)` (spec §4.2) with the
default `bound=True`: a new Memory holding a copy of the range, its trimming
span forced to the range; reference semantics
`values_to_blocks(values[start:endex], start)` in `test_extract_template`,
and `extract(2, 0).span == (2, 2)` in `test_extract_negative`. -/
def Memory.extract (m : Memory) (s e : Nat) : Memory :=
  ⟨values_to_blocks (region m.values s e) s, some s, some (max s e)⟩

/-- Modelled from the spec: `cut(start, endex)` (spec §4.2), like extract but
also deleting (clearing, per `test_cut_template`: the later `write(0, cut)`
restores the original without any shift) the source range. -/
def Memory.cut (m : Memory) (s e : Nat) : Memory × Memory :=
  (m.extract s e, m.clear s e)

/-- Modelled from the spec: `write(address, sub, clear)` with a Memory source
(spec §4.2, §4.2 update): each cell of `sub` is written at its own address
shifted by `address`; with `clear = true` the whole span of `sub` (shifted) is
replaced wholesale, gaps included; reference semantics in
`test_write_noclear_hello_over_template` / `test_write_clear_hello_over_template`. -/
def Memory.writeMem (m : Memory) (addr : Nat) (sub : Memory) (clear : Bool) : Memory :=
  if clear then
    mkMem (setRange m.values (addr + sub.start) (region sub.values sub.start sub.endex))
  else
    mkMem (setRange m.values (addr + sub.start)
      (List.zipWith (fun sv o => sv <|> o) (region sub.values sub.start sub.endex)
        (region m.values (addr + sub.start) (addr + sub.start + (sub.endex - sub.start)))))

/-- Walk of the block list performed by `validate` (spec §4.2): for each block
check interleaving against the previous block end, nonemptiness, and the
overall bounds; modelled from the spec and pinned by
`test_validate_invalid_bounds` / `..._invalid_block_interleaving` /
`..._invalid_block_bounds` in `src/tests/_common.py`. -/
def prevOverlapsb (prev : Option Nat) (s : Nat) : Bool :=
  match prev with
  | some p => decide (s ≤ p)
  | none => false

def checkBlocks : List Block → Option Nat → Nat → Nat → Option String
  | [], _, _, _ => none
  | (s, d) :: rest, prev, lo, hi =>
      if prevOverlapsb prev s then
        some "invalid block interleaving"
      else if s + d.length ≤ s then some "invalid block data size"
      else if s < lo ∨ hi < s + d.length then some "invalid block bounds"
      else checkBlocks rest (some (s + d.length)) lo hi

/-- Modelled from the spec: `validate()` (spec §4.2) re-walks the block list
verifying the §3 invariants, reporting the first violation found; `none` means
no error.  The overall bounds are the virtual span (derived from the first and
last blocks when no trimming window is set). -/
def Memory.validate (m : Memory) : Option String :=
  if m.blocks.isEmpty then
    if m.endex < m.start then some "invalid bounds" else none
  else
    if m.endex ≤ m.start then some "invalid bounds"
    else checkBlocks m.blocks none m.start m.endex

/-- Modelled from the spec: `view(start, endex)` (spec §6) succeeds exactly
when the span is fully covered by a single block, returning those bytes, and
fails with the distinguishable non-contiguity error otherwise; an empty span
always succeeds (`test_view_template`). -/
def viewGo : List Block → Nat → Nat → Except String (List Value)
  | [], _, _ => Except.error "non-contiguous data within range"
  | (bs, d) :: rest, s, e =>
      if bs + d.length ≤ s then viewGo rest s e
      else if s < bs then Except.error "non-contiguous data within range"
      else if e ≤ bs + d.length then Except.ok ((d.drop (s - bs)).take (e - s))
      else Except.error "non-contiguous data within range"

/-- Modelled from the spec: `view` entry point; an empty requested span yields
an empty result without error. -/
def Memory.view (m : Memory) (s e : Nat) : Except String (List Value) :=
  if s < e then viewGo m.blocks s e else Except.ok []

/-- Length of the run of values equal to `v` ending at index `i` (searching
backwards) inside a block's data, as the index where the run starts. -/
def backRun (d : List Value) : Nat → Value → Nat
  | 0, _ => 0
  | j + 1, v => if d.getD j 0 = v then backRun d j v else j + 1

/-- Length of the run of values equal to `v` at the head of a list. -/
def fwdRun : List Value → Value → Nat
  | [], _ => 0
  | x :: r, v => if x = v then 1 + fwdRun r v else 0

/-- Walk of the block list performed by `equal_span` (spec §4.2): locate the
address, expanding a same-value run inside its block, or report the
surrounding gap with `none` for a side that extends unboundedly. -/
def equalSpanGo : List Block → Option Nat → Nat → Option Nat × Option Nat × Option Value
  | [], prev, _ => (prev, none, none)
  | (s, d) :: rest, prev, a =>
      if a < s then (prev, some s, none)
      else if a < s + d.length then
        (some (s + backRun d (a - s) (d.getD (a - s) 0)),
          some (s + (a - s) + fwdRun (d.drop (a - s)) (d.getD (a - s) 0)),
          some (d.getD (a - s) 0))
      else equalSpanGo rest (some (s + d.length)) a

/-- Modelled from the spec: `equal_span(address)` (spec §4.2), the maximal
span around the address holding the same value (or uniformly a gap), with
`none` bounds for an unbounded gap side; pinned by
`test_equal_span_doctest`. -/
def Memory.equal_span (m : Memory) (a : Nat) : Option Nat × Option Nat × Option Value :=
  equalSpanGo m.blocks none a

/-- Spans of the maximal runs of defined cells of a cell list, the first cell
standing for address `off`. -/
def someRuns : List (Option Value) → Nat → List (Nat × Nat)
  | [], _ => []
  | none :: rest, off => someRuns rest (off + 1)
  | some _ :: rest, off =>
      match someRuns rest (off + 1) with
      | [] => [(off, off + 1)]
      | (s, e) :: rs =>
          if s = off + 1 then (off, e) :: rs else (off, off + 1) :: (s, e) :: rs

/-- Spans of the maximal runs of gap cells of a cell list, the first cell
standing for address `off`. -/
def noneRuns : List (Option Value) → Nat → List (Nat × Nat)
  | [], _ => []
  | some _ :: rest, off => noneRuns rest (off + 1)
  | none :: rest, off =>
      match noneRuns rest (off + 1) with
      | [] => [(off, off + 1)]
      | (s, e) :: rs =>
          if s = off + 1 then (off, e) :: rs else (off, off + 1) :: (s, e) :: rs

/-- Modelled from the spec: `intervals(start, endex)` (spec §4.2) over a
finite window, one span per maximal contiguous defined run intersected with
the window; reference semantics `src/tests/_common.py::values_to_intervals`. -/
def Memory.intervals (m : Memory) (s e : Nat) : List (Nat × Nat) :=
  someRuns (region m.values s e) s

/-- Modelled from the spec: `gaps(start, endex)` (spec §4.2) over a finite
window, one span per maximal undefined run intersected with the window (both
window sides bounded, so no open-ended gap arises); reference semantics
`src/tests/_common.py::values_to_gaps` for nonempty content. -/
def Memory.gaps (m : Memory) (s e : Nat) : List (Nat × Nat) :=
  noneRuns (region m.values s e) s

/-- Modelled from the spec: `fill_backup(start, endex)` (spec §4.2 backup
protocol) extracts the range before mutation (`test_fill_template`). -/
def Memory.fill_backup (m : Memory) (s e : Nat) : Memory :=
  m.extract s e

/-- Modelled from the spec: `fill_restore(backup)` writes the backup back
wholesale over its own span (`write(0, backup, clear=True)`). -/
def Memory.fill_restore (m : Memory) (b : Memory) : Memory :=
  m.writeMem 0 b true

/-- Modelled from the spec: `flood_backup(start, endex)` records the gaps of
the range (`test_flood_template`: `backup == list(memory.gaps(start, endex))`). -/
def Memory.flood_backup (m : Memory) (s e : Nat) : List (Nat × Nat) :=
  m.gaps s e

/-- Modelled from the spec: `flood_restore(gaps)` clears every recorded gap
span again. -/
def Memory.flood_restore (m : Memory) (gs : List (Nat × Nat)) : Memory :=
  gs.foldl (fun mm p => mm.clear p.1 p.2) m

/-- Modelled from the spec: `poke_backup(address)` records the address and the
previous cell value (`test_poke_value_template`). -/
def Memory.poke_backup (m : Memory) (a : Nat) : Nat × Option Value :=
  (a, m.peek a)

/-- Modelled from the spec: `poke_restore(address, value)` pokes the recorded
value back. -/
def Memory.poke_restore (m : Memory) (a : Nat) (v : Option Value) : Memory :=
  m.poke a v

/-- Modelled from the spec: `popitem_backup()` records the last stored cell
(`test_popitem`). -/
def Memory.popitem_backup (m : Memory) : Nat × Option Value :=
  (m.contentEndex - 1, m.peek (m.contentEndex - 1))

/-- Modelled from the spec: `popitem_restore(address, item)` pokes the
recorded cell back. -/
def Memory.popitem_restore (m : Memory) (a : Nat) (v : Option Value) : Memory :=
  m.poke a v

/-- Modelled from the spec: `write_backup(address, data)` extracts the
overwritten range before mutation (`test_write_simple`:
`backup == memory.extract(offset, offset + len(chunk))`); the wrapper pins the
return type `List[ImmutableMemory]`, a single element for flat data. -/
def Memory.write_backup (m : Memory) (a : Nat) (data : List Value) : List Memory :=
  [m.extract a (a + data.length)]

/-- Modelled from the spec: `write_restore(backups)` writes every backup back
wholesale over its own span (`write(0, backup, clear=True)` per backup). -/
def Memory.write_restore (m : Memory) (bs : List Memory) : Memory :=
  bs.foldl (fun mm b => mm.writeMem 0 b true) m

/-- Modelled from the spec: `clear_backup(start, endex)` extracts the range
before mutation (`test_clear_template`:
`backup == memory_backup.extract(start=start, endex=endex)`). -/
def Memory.clear_backup (m : Memory) (s e : Nat) : Memory :=
  m.extract s e

/-- Modelled from the spec: `clear_restore(backup)` writes the backup back
wholesale over its own span. -/
def Memory.clear_restore (m : Memory) (b : Memory) : Memory :=
  m.writeMem 0 b true

/-- Modelled from the spec: `delete_backup(start, endex)` extracts the range
(`test_delete_template`:
`backup == memory_backup.extract(start=start, endex=endex)`). -/
def Memory.delete_backup (m : Memory) (s e : Nat) : Memory :=
  m.extract s e

/-- Modelled from the spec: `delete_restore(backup)` reserves the deleted span
again and writes the backup into the reopened gap. -/
def Memory.delete_restore (m : Memory) (b : Memory) : Memory :=
  (m.reserve b.start (b.endex - b.start)).writeMem 0 b false

/-- Modelled from the spec: `insert_backup(address, data)` records the address
and a span-carrying extract of the insertion range (the wrapper pins the
return type `Tuple[Address, ImmutableMemory]`; `test_insert_bounded_template`
pins the address component). -/
def Memory.insert_backup (m : Memory) (a : Nat) (data : List Value) : Nat × Memory :=
  (a, m.extract a (a + data.length))

/-- Modelled from the spec: `insert_restore(address, backup)` deletes the
inserted span, shifting the content back, and rewrites the recorded range
wholesale. -/
def Memory.insert_restore (m : Memory) (a : Nat) (b : Memory) : Memory :=
  (m.delete a (a + (b.endex - b.start))).writeMem 0 b true

/-- Modelled from the spec: `reserve_backup(address, size)` records the
address and a span-carrying extract of the reserved range (the wrapper pins
the return type `Tuple[Address, ImmutableMemory]`;
`test_reserve_bounded_template` pins the address component). -/
def Memory.reserve_backup (m : Memory) (a n : Nat) : Nat × Memory :=
  (a, m.extract a (a + n))

/-- Modelled from the spec: `reserve_restore(address, backup)` deletes the
reserved gap, shifting the content back, and rewrites the recorded range
wholesale. -/
def Memory.reserve_restore (m : Memory) (a : Nat) (b : Memory) : Memory :=
  (m.delete a (a + (b.endex - b.start))).writeMem 0 b true

/-- Modelled from the spec: `append_backup()` carries no information
(`test_append`: `backup is None`). -/
def Memory.append_backup (_m : Memory) : Option Unit :=
  none

/-- Modelled from the spec: `append_restore()` pops the appended cell, the
last stored one. -/
def Memory.append_restore (m : Memory) : Memory :=
  m.pop (m.contentEndex - 1)

/-- Modelled from the spec: `pop_backup(address)` records the address and the
value about to be removed (`test_pop_template_bruteforce`:
`backup_address == start` and `backup_value == values[start]`). -/
def Memory.pop_backup (m : Memory) (a : Nat) : Nat × Option Value :=
  (a, m.peek a)

/-- Modelled from the spec: `pop_restore(address, item)` reopens the removed
cell: a gap value is reserved again, a stored value is inserted back. -/
def Memory.pop_restore (m : Memory) (a : Nat) (v : Option Value) : Memory :=
  match v with
  | none => m.reserve a 1
  | some x => m.insert a [x]

/-- Modelled from the spec: first address whose cells all hold the pattern
(the engine's `index`); the search is bounded by the content end. -/
def Memory.find (m : Memory) (pat : List Value) : Option Nat :=
  (List.range (m.contentEndex + 1)).find?
    (fun a => region m.values a (a + pat.length) = pat.map some)

/-- Modelled from the spec: `remove(item)` deletes the first subsection
matching the pattern, shifting later content leftward (`test_remove`); `none`
models the `ValueError` raised when the subsection is not found. -/
def Memory.remove (m : Memory) (pat : List Value) : Option Memory :=
  (m.find pat).map fun a => m.delete a (a + pat.length)

/-- Modelled from the spec: `remove_backup(item)` extracts the matched range
before mutation; `none` models the not-found error. -/
def Memory.remove_backup (m : Memory) (pat : List Value) : Option Memory :=
  (m.find pat).map fun a => m.extract a (a + pat.length)

/-- Modelled from the spec: `remove_restore(backup)` reserves the removed span
again and writes the backup into the reopened gap. -/
def Memory.remove_restore (m : Memory) (b : Memory) : Memory :=
  (m.reserve b.start (b.endex - b.start)).writeMem 0 b false

/-- Modelled from the spec: `setdefault(address, default)` stores the default
at the address only when that cell is a gap (`test_setdefault_template`). -/
def Memory.setdefault (m : Memory) (a : Nat) (v : Value) : Memory :=
  match m.peek a with
  | some _ => m
  | none => m.poke a (some v)

/-- Modelled from the spec: `setdefault_backup(address)` records the address
and the current cell value (`test_setdefault_template`). -/
def Memory.setdefault_backup (m : Memory) (a : Nat) : Nat × Option Value :=
  (a, m.peek a)

/-- Modelled from the spec: `setdefault_restore(address, item)` pokes the
recorded value back. -/
def Memory.setdefault_restore (m : Memory) (a : Nat) (v : Option Value) : Memory :=
  m.poke a v

/-- Modelled from the spec: `crop_backup(start, endex)` extracts the two
trimmed-away outer parts (`test_crop_template`); the `None` components of the
wrapper's return type arise only for the defaulted window arguments, which
this model always receives explicitly. -/
def Memory.crop_backup (m : Memory) (s e : Nat) : Memory × Memory :=
  (m.extract m.contentStart s, m.extract e m.contentEndex)

/-- Modelled from the spec: `crop_restore(backup_start, backup_endex)` writes
both outer parts back wholesale over their own spans. -/
def Memory.crop_restore (m : Memory) (b : Memory × Memory) : Memory :=
  (m.writeMem 0 b.1 true).writeMem 0 b.2 true

/-- Modelled from the spec: `shift_backup(offset)` records the offset and the
content about to be trimmed away, which is empty for an untrimmed memory (the
wrapper pins the return type `Tuple[Address, ImmutableMemory]`;
`test_shift_bounded_template` pins the offset component). -/
def Memory.shift_backup (_m : Memory) (off : Nat) : Nat × Memory :=
  (off, Memory.from_blocks [])

/-- Modelled from the spec: `shift_restore(offset, backup)` shifts back by the
recorded offset (addresses are unsigned, so the leftward translation is
truncated); writing the empty trim backup back is a no-op for an untrimmed
memory. -/
def Memory.shift_restore (m : Memory) (off : Nat) (_b : Memory) : Memory :=
  ⟨m.blocks.map fun b => (b.1 - off, b.2), m.bstart, m.bendex⟩

/-- Modelled from the spec: `update(data)` with a Memory source writes the
source at its own addresses (`test_update_template_memory`:
the reference state is `memory_ref.write(0, memory2)`). -/
def Memory.update (m : Memory) (src : Memory) : Memory :=
  m.writeMem 0 src false

/-- Modelled from the spec: `update_backup(data)` with a Memory source
extracts the source's whole span (`test_update_memory`:
`backup == memory_ref` where `memory_ref = memory_backup.extract(start, endex)`
over the source's span). -/
def Memory.update_backup (m : Memory) (src : Memory) : List Memory :=
  [m.extract src.start src.endex]

/-- Modelled from the spec: `update_restore(backups)` writes every backup back
wholesale over its own span. -/
def Memory.update_restore (m : Memory) (bs : List Memory) : Memory :=
  bs.foldl (fun mm b => mm.writeMem 0 b true) m

/-- Modelled from the spec: `extend(items, offset)` writes the new content
`offset` cells after the content end (`test_extend_bytes_bounded`). -/
def Memory.extend (m : Memory) (data : List Value) (off : Nat) : Memory :=
  m.write (m.contentEndex + off) data

/-- Modelled from the spec: `extend_backup(offset)` records the address where
the extension begins (the wrapper pins the return type `Address`). -/
def Memory.extend_backup (m : Memory) (off : Nat) : Nat :=
  m.contentEndex + off

/-- Modelled from the spec: `extend_restore(content_endex)` clears everything
from the recorded address up to the current content end. -/
def Memory.extend_restore (m : Memory) (b : Nat) : Memory :=
  m.clear b m.contentEndex

/-- Cell value at an index of a flat cell list (`none` when out of range). -/
def cellAt (vs : List (Option Value)) (a : Nat) : Option Value :=
  vs.getD a none

theorem cellAt_eq_getElem (vs : List (Option Value)) (a : Nat) :
    cellAt vs a = (vs[a]?).getD none := by
  rw [cellAt, List.getD_eq_getD_get?]; simp

theorem cellAt_of_ge (vs : List (Option Value)) (a : Nat) (h : vs.length ≤ a) :
    cellAt vs a = none := by
  rw [cellAt_eq_getElem, List.getElem?_eq_none h]; rfl

theorem cellAt_append (l1 l2 : List (Option Value)) (a : Nat) :
    cellAt (l1 ++ l2) a = if a < l1.length then cellAt l1 a else cellAt l2 (a - l1.length) := by
  rw [cellAt_eq_getElem, cellAt_eq_getElem, cellAt_eq_getElem, List.getElem?_append]
  split <;> rfl

theorem cellAt_cons_succ (x : Option Value) (l : List (Option Value)) (a : Nat) :
    cellAt (x :: l) (a + 1) = cellAt l a := by
  rw [cellAt_eq_getElem, cellAt_eq_getElem, List.getElem?_cons_succ]

theorem cellAt_cons_zero (x : Option Value) (l : List (Option Value)) :
    cellAt (x :: l) 0 = x := by
  rw [cellAt_eq_getElem, List.getElem?_cons_zero]; rfl

theorem cellAt_replicate (k a : Nat) : cellAt (List.replicate k none) a = none := by
  rw [cellAt_eq_getElem, List.getElem?_replicate]
  split <;> rfl

theorem cellAt_drop (vs : List (Option Value)) (n a : Nat) :
    cellAt (vs.drop n) a = cellAt vs (n + a) := by
  rw [cellAt_eq_getElem, cellAt_eq_getElem, List.getElem?_drop]

theorem cellAt_take (vs : List (Option Value)) (n a : Nat) :
    cellAt (vs.take n) a = if a < n then cellAt vs a else none := by
  rw [cellAt_eq_getElem, cellAt_eq_getElem, List.getElem?_take]
  split <;> rfl

theorem cellAt_map_some (l : List Value) (a : Nat) :
    cellAt (l.map some) a = l[a]? := by
  rw [cellAt_eq_getElem, List.getElem?_map]
  cases l[a]? <;> rfl

theorem padTo_cellAt (vs : List (Option Value)) (n a : Nat) :
    cellAt (padTo vs n) a = cellAt vs a := by
  rw [padTo, cellAt_append]
  by_cases h : a < vs.length
  · rw [if_pos h]
  · rw [if_neg h, cellAt_replicate, cellAt_of_ge _ _ (by omega)]

theorem padTo_length (vs : List (Option Value)) (n : Nat) :
    (padTo vs n).length = max vs.length n := by
  simp [padTo]; omega

theorem region_length (vs : List (Option Value)) (s e : Nat) :
    (region vs s e).length = e - s := by
  simp [region, padTo_length]; omega

theorem region_cellAt (vs : List (Option Value)) (s e i : Nat) :
    cellAt (region vs s e) i = if i < e - s then cellAt vs (s + i) else none := by
  rw [region, cellAt_take, cellAt_drop, padTo_cellAt]

theorem setRange_cellAt (vs news : List (Option Value)) (s a : Nat) :
    cellAt (setRange vs s news) a =
      if s ≤ a ∧ a < s + news.length then cellAt news (a - s) else cellAt vs a := by
  have htake : ((padTo vs (s + news.length)).take s).length = s := by
    rw [List.length_take, padTo_length]; omega
  have hfront : ((padTo vs (s + news.length)).take s ++ news).length = s + news.length := by
    rw [List.length_append, htake]
  rw [setRange, cellAt_append, hfront, cellAt_append, htake, cellAt_take, cellAt_drop,
    padTo_cellAt, padTo_cellAt]
  rcases Nat.lt_or_ge a s with h | h
  · rw [if_pos (by omega), if_pos h, if_pos h, if_neg (by omega)]
  · rcases Nat.lt_or_ge a (s + news.length) with h2 | h2
    · rw [if_pos h2, if_neg (by omega), if_pos (by omega)]
    · rw [if_neg (by omega), if_neg (by omega)]
      congr 1
      omega

theorem tile_length (pat : List Value) (n : Nat) : (tile pat n).length = n := by
  simp [tile]

theorem tile_getElem (pat : List Value) (n i : Nat) (h : i < n) :
    (tile pat n)[i]? = some (pat.getD (i % pat.length) 0) := by
  simp [tile, List.getElem?_map, List.getElem?_range h]

theorem cellAt_zipWith_orElse (l1 l2 : List (Option Value))
    (f : Option Value → Option Value → Option Value) (a : Nat)
    (h1 : a < l1.length) (h2 : a < l2.length) :
    cellAt (List.zipWith f l1 l2) a = f (cellAt l1 a) (cellAt l2 a) := by
  rw [cellAt_eq_getElem, cellAt_eq_getElem, cellAt_eq_getElem, List.getElem?_zipWith,
    List.getElem?_eq_getElem h1, List.getElem?_eq_getElem h2]
  rfl

theorem values_to_blocks_nil (off : Nat) : values_to_blocks [] off = [] := rfl

theorem values_to_blocks_none (r : List (Option Value)) (off : Nat) :
    values_to_blocks (none :: r) off = values_to_blocks r (off + 1) := rfl

theorem values_to_blocks_some (v : Value) (r : List (Option Value)) (off : Nat) :
    values_to_blocks (some v :: r) off =
      match values_to_blocks r (off + 1) with
      | [] => [(off, [v])]
      | (s, d) :: bs =>
          if s = off + 1 then (off, v :: d) :: bs else (off, [v]) :: (s, d) :: bs := rfl

theorem values_to_blocks_some_nil (v : Value) (r : List (Option Value)) (off : Nat)
    (h : values_to_blocks r (off + 1) = []) :
    values_to_blocks (some v :: r) off = [(off, [v])] := by
  rw [values_to_blocks_some, h]

theorem values_to_blocks_some_cons (v : Value) (r : List (Option Value)) (off s : Nat)
    (d : List Value) (bs : List Block) (h : values_to_blocks r (off + 1) = (s, d) :: bs) :
    values_to_blocks (some v :: r) off =
      if s = off + 1 then (off, v :: d) :: bs else (off, [v]) :: (s, d) :: bs := by
  rw [values_to_blocks_some, h]

theorem values_to_blocks_ne_nil (v : Value) (r : List (Option Value)) (off : Nat) :
    values_to_blocks (some v :: r) off ≠ [] := by
  rw [values_to_blocks_some]
  cases h : values_to_blocks r (off + 1) with
  | nil => simp
  | cons b bs =>
      obtain ⟨s, d⟩ := b
      by_cases hs : s = off + 1 <;> simp [hs]

theorem values_to_blocks_start_ge : ∀ (vs : List (Option Value)) (off : Nat),
    ∀ b ∈ values_to_blocks vs off, off ≤ b.1 := by
  intro vs
  induction vs with
  | nil =>
      intro off b hb
      rw [values_to_blocks_nil] at hb
      exact absurd hb (List.not_mem_nil b)
  | cons x rest ih =>
      intro off b hb
      cases x with
      | none =>
          rw [values_to_blocks_none] at hb
          have := ih (off + 1) b hb
          omega
      | some v =>
          cases hrec : values_to_blocks rest (off + 1) with
          | nil =>
              rw [values_to_blocks_some_nil v rest off hrec] at hb
              rw [List.mem_singleton] at hb
              rw [hb]
          | cons b1 bs =>
              obtain ⟨s, d⟩ := b1
              rw [values_to_blocks_some_cons v rest off s d bs hrec] at hb
              by_cases hs : s = off + 1
              · rw [if_pos hs] at hb
                rcases List.mem_cons.mp hb with h1 | h1
                · rw [h1]
                · have := ih (off + 1) b (by rw [hrec]; exact List.mem_cons_of_mem _ h1)
                  omega
              · rw [if_neg hs] at hb
                rcases List.mem_cons.mp hb with h1 | h1
                · rw [h1]
                · have := ih (off + 1) b (by rw [hrec]; exact h1)
                  omega

theorem values_to_blocks_nil_cells : ∀ (vs : List (Option Value)) (off : Nat),
    values_to_blocks vs off = [] → ∀ i, cellAt vs i = none := by
  intro vs
  induction vs with
  | nil => intro off _ i; exact cellAt_of_ge _ _ (by simp)
  | cons x rest ih =>
      intro off h i
      cases x with
      | none =>
          rw [values_to_blocks_none] at h
          match i with
          | 0 => exact cellAt_cons_zero _ _
          | j + 1 =>
              rw [cellAt_cons_succ]
              exact ih (off + 1) h j
      | some v => exact absurd h (values_to_blocks_ne_nil v rest off)

theorem blockPeek_before_all : ∀ (bl : List Block) (a : Nat),
    (∀ b ∈ bl, a < b.1) → blockPeek bl a = none := by
  intro bl
  induction bl with
  | nil => intro a _; rw [blockPeek]
  | cons hd rest _ =>
      intro a h
      obtain ⟨s, d⟩ := hd
      rw [blockPeek, if_pos (h (s, d) (List.mem_cons_self _ _))]

theorem blockPeek_merge (off : Nat) (v : Value) (d : List Value) (bs : List Block) (a : Nat) :
    blockPeek ((off, v :: d) :: bs) a =
      if a = off then some v else blockPeek ((off + 1, d) :: bs) a := by
  by_cases h0 : a = off
  · subst h0
    rw [if_pos rfl, blockPeek, if_neg (by omega), if_pos (by simp)]
    rw [Nat.sub_self, List.getD_cons_zero]
  · rw [if_neg h0, blockPeek]
    by_cases h1 : a < off
    · rw [if_pos h1, blockPeek, if_pos (by omega)]
    · by_cases h2 : a < off + (v :: d).length
      · rw [if_neg h1, if_pos h2, blockPeek, if_neg (by omega)]
        rw [if_pos (by simp only [List.length_cons] at h2; omega)]
        have hi : a - off = (a - (off + 1)) + 1 := by omega
        rw [hi, List.getD_cons_succ]
      · rw [if_neg h1, if_neg h2, blockPeek, if_neg (by omega)]
        rw [if_neg (by simp only [List.length_cons] at h2 ⊢; omega)]

theorem blockPeek_values_to_blocks : ∀ (vs : List (Option Value)) (off i : Nat),
    blockPeek (values_to_blocks vs off) (off + i) = cellAt vs i := by
  intro vs
  induction vs with
  | nil =>
      intro off i
      rw [values_to_blocks_nil, blockPeek, cellAt_of_ge _ _ (by simp)]
  | cons x rest ih =>
      intro off i
      cases x with
      | none =>
          rw [values_to_blocks_none]
          match i with
          | 0 =>
              rw [cellAt_cons_zero]
              exact blockPeek_before_all _ _ (fun b hb => by
                have := values_to_blocks_start_ge rest (off + 1) b hb
                omega)
          | j + 1 =>
              rw [cellAt_cons_succ, ← ih (off + 1) j]
              congr 1
              omega
      | some v =>
          cases hrec : values_to_blocks rest (off + 1) with
          | nil =>
              rw [values_to_blocks_some_nil v rest off hrec]
              match i with
              | 0 =>
                  rw [cellAt_cons_zero, blockPeek, if_neg (by omega)]
                  rw [if_pos (by simp only [List.length_singleton]; omega)]
                  rw [Nat.add_zero, Nat.sub_self, List.getD_cons_zero]
              | j + 1 =>
                  rw [cellAt_cons_succ, values_to_blocks_nil_cells rest (off + 1) hrec j,
                    blockPeek, if_neg (by omega)]
                  rw [if_neg (by simp only [List.length_singleton]; omega), blockPeek]
          | cons b1 bs =>
              obtain ⟨s, d⟩ := b1
              rw [values_to_blocks_some_cons v rest off s d bs hrec]
              by_cases hs : s = off + 1
              · rw [if_pos hs, blockPeek_merge]
                match i with
                | 0 => rw [Nat.add_zero, if_pos rfl, cellAt_cons_zero]
                | j + 1 =>
                    rw [if_neg (by omega), cellAt_cons_succ]
                    have hpk : blockPeek (values_to_blocks rest (off + 1)) ((off + 1) + j)
                        = cellAt rest j := ih (off + 1) j
                    rw [hrec, hs] at hpk
                    rw [← hpk]
                    congr 1
                    omega
              · rw [if_neg hs]
                match i with
                | 0 =>
                    rw [cellAt_cons_zero, blockPeek, if_neg (by omega)]
                    rw [if_pos (by simp only [List.length_singleton]; omega)]
                    rw [Nat.add_zero, Nat.sub_self, List.getD_cons_zero]
                | j + 1 =>
                    rw [cellAt_cons_succ, blockPeek, if_neg (by omega)]
                    rw [if_neg (by simp only [List.length_singleton]; omega)]
                    have hpk : blockPeek (values_to_blocks rest (off + 1)) ((off + 1) + j)
                        = cellAt rest j := ih (off + 1) j
                    rw [hrec] at hpk
                    rw [← hpk]
                    congr 1
                    omega

theorem blocksOKb_cons_ne {b : Block} {tl : List Block} (h : blocksOKb (b :: tl) = true) :
    b.2 ≠ [] := by
  match tl with
  | [] =>
      simp [blocksOKb] at h
      exact List.ne_nil_of_length_pos (by
        cases hb : b.2 with
        | nil => rw [hb] at h; simp at h
        | cons x xs => simp [hb])
  | c :: rest =>
      simp [blocksOKb] at h
      exact List.ne_nil_of_length_pos (by
        cases hb : b.2 with
        | nil => rw [hb] at h; simp at h
        | cons x xs => simp [hb])

theorem blocksOKb_tail {b : Block} {tl : List Block} (h : blocksOKb (b :: tl) = true) :
    blocksOKb tl = true := by
  match tl with
  | [] => rfl
  | c :: rest => simp [blocksOKb] at h; exact h.2

theorem blocksOKb_sep {b c : Block} {tl : List Block}
    (h : blocksOKb (b :: c :: tl) = true) : b.1 + b.2.length < c.1 := by
  simp [blocksOKb] at h; exact h.1.2

theorem blocksOKb_all_lt : ∀ {tl : List Block} {b : Block},
    blocksOKb (b :: tl) = true → ∀ c ∈ tl, b.1 + b.2.length < c.1 := by
  intro tl
  induction tl with
  | nil => intro b _ c hc; exact absurd hc (List.not_mem_nil c)
  | cons c2 rest ih =>
      intro b h c hc
      rcases List.mem_cons.mp hc with h1 | h1
      · rw [h1]; exact blocksOKb_sep h
      · have hc2 := ih (blocksOKb_tail h) c h1
        have hsep := blocksOKb_sep h
        have hne : c2.2 ≠ [] := blocksOKb_cons_ne (blocksOKb_tail h)
        have : 0 < c2.2.length := List.length_pos.mpr hne
        omega

theorem blocksOKb_cons_of (b : Block) (tl : List Block) (hne : b.2 ≠ [])
    (hsep : ∀ c, tl.head? = some c → b.1 + b.2.length < c.1)
    (htl : blocksOKb tl = true) : blocksOKb (b :: tl) = true := by
  match tl with
  | [] => simpa [blocksOKb] using hne
  | c :: rest =>
      simp [blocksOKb]
      exact ⟨⟨hne, hsep c rfl⟩, htl⟩

theorem values_to_blocks_OK : ∀ (vs : List (Option Value)) (off : Nat),
    blocksOKb (values_to_blocks vs off) = true := by
  intro vs
  induction vs with
  | nil => intro off; rw [values_to_blocks_nil]; rfl
  | cons x rest ih =>
      intro off
      cases x with
      | none =>
          rw [values_to_blocks_none]
          exact ih (off + 1)
      | some v =>
          cases hrec : values_to_blocks rest (off + 1) with
          | nil =>
              rw [values_to_blocks_some_nil v rest off hrec]
              simp [blocksOKb]
          | cons b1 bs =>
              obtain ⟨s, d⟩ := b1
              rw [values_to_blocks_some_cons v rest off s d bs hrec]
              have hOKrec : blocksOKb ((s, d) :: bs) = true := by
                rw [← hrec]; exact ih (off + 1)
              by_cases hs : s = off + 1
              · rw [if_pos hs]
                apply blocksOKb_cons_of (off, v :: d) bs (by simp)
                · intro c hc
                  have := blocksOKb_all_lt hOKrec c (by
                    cases bs with
                    | nil => simp at hc
                    | cons c0 bs2 =>
                        rw [List.head?_cons] at hc
                        rw [Option.some.inj hc]
                        exact List.mem_cons_self _ _)
                  simp at this ⊢
                  omega
                · exact blocksOKb_tail hOKrec
              · rw [if_neg hs]
                apply blocksOKb_cons_of (off, [v]) ((s, d) :: bs) (by simp)
                · intro c hc
                  rw [List.head?_cons] at hc
                  rw [← Option.some.inj hc]
                  have := values_to_blocks_start_ge rest (off + 1) (s, d) (by
                    rw [hrec]; exact List.mem_cons_self _ _)
                  simp at this ⊢
                  omega
                · exact hOKrec

theorem getElem?_eq_some_getD (d : List Value) (j : Nat) (h : j < d.length) :
    d[j]? = some (d.getD j 0) := by
  rw [List.getElem?_eq_getElem h]
  congr 1
  rw [List.getD_eq_getD_get?, List.get?_eq_getElem?, List.getElem?_eq_getElem h]
  rfl

theorem mkMem_peek (vs : List (Option Value)) (a : Nat) :
    (mkMem vs).peek a = cellAt vs a := by
  have := blockPeek_values_to_blocks vs 0 a
  rw [Memory.peek, mkMem]
  simpa using this

theorem mkMem_blocksOK (vs : List (Option Value)) : blocksOKb (mkMem vs).blocks = true :=
  values_to_blocks_OK vs 0

theorem b2vGo_cellAt : ∀ (bl : List Block) (acc : Nat), blocksOKb bl = true →
    (∀ b ∈ bl, acc ≤ b.1) → ∀ i, cellAt (b2vGo bl acc) i = blockPeek bl (acc + i) := by
  intro bl
  induction bl with
  | nil =>
      intro acc _ _ i
      rw [b2vGo, blockPeek, cellAt_of_ge]
      simp
  | cons hd rest ih =>
      intro acc hOK hge i
      obtain ⟨s, d⟩ := hd
      have hacc : acc ≤ s := hge (s, d) (List.mem_cons_self _ _)
      have hmax : max acc s = s := by omega
      have hstep : ∀ b ∈ rest, s + d.length ≤ b.1 := by
        intro b hb
        have := blocksOKb_all_lt hOK b hb
        simp at this
        omega
      have hlenA : (List.replicate (s - acc) (none : Option Value)).length = s - acc := by
        simp
      have hlenAB : (List.replicate (s - acc) (none : Option Value) ++ d.map some).length
          = s - acc + d.length := by simp
      rw [b2vGo, hmax, cellAt_append, hlenAB]
      by_cases h1 : i < s - acc + d.length
      · rw [if_pos h1, cellAt_append, hlenA]
        by_cases h0 : i < s - acc
        · rw [if_pos h0, cellAt_replicate, blockPeek, if_pos (by omega)]
        · rw [if_neg h0, cellAt_map_some, getElem?_eq_some_getD _ _ (by omega),
            blockPeek, if_neg (by omega), if_pos (by omega)]
          have hidx : acc + i - s = i - (s - acc) := by omega
          rw [hidx]
      · rw [if_neg h1]
        have hih := ih (s + d.length) (blocksOKb_tail hOK) hstep (i - (s - acc + d.length))
        rw [hih, blockPeek, if_neg (by omega), if_neg (by omega)]
        have hidx : s + d.length + (i - (s - acc + d.length)) = acc + i := by omega
        rw [hidx]

theorem blocks_to_values_cellAt (bl : List Block) (hOK : blocksOKb bl = true) (a : Nat) :
    cellAt (blocks_to_values bl) a = blockPeek bl a := by
  have := b2vGo_cellAt bl 0 hOK (fun b _ => Nat.zero_le _) a
  rw [blocks_to_values]
  simpa using this

theorem blockPeek_at_start (s : Nat) (d : List Value) (rest : List Block) (hne : d ≠ []) :
    blockPeek ((s, d) :: rest) s = some (d.getD 0 0) := by
  have : 0 < d.length := List.length_pos.mpr hne
  rw [blockPeek, if_neg (by omega), if_pos (by omega)]
  rw [Nat.sub_self]

theorem blocksExt : ∀ (bl1 bl2 : List Block), blocksOKb bl1 = true → blocksOKb bl2 = true →
    (∀ a, blockPeek bl1 a = blockPeek bl2 a) → bl1 = bl2 := by
  intro bl1
  induction bl1 with
  | nil =>
      intro bl2 _ hOK2 hpk
      match bl2 with
      | [] => rfl
      | (s2, d2) :: r2 =>
          have h1 := hpk s2
          rw [blockPeek, blockPeek_at_start s2 d2 r2 (blocksOKb_cons_ne hOK2)] at h1
          exact absurd h1 (by simp)
  | cons hd r1 ih =>
      intro bl2 hOK1 hOK2 hpk
      obtain ⟨s1, d1⟩ := hd
      match bl2 with
      | [] =>
          have h1 := hpk s1
          rw [blockPeek, blockPeek_at_start s1 d1 r1 (blocksOKb_cons_ne hOK1)] at h1
          exact absurd h1 (by simp)
      | (s2, d2) :: r2 =>
          have hne1 : d1 ≠ [] := blocksOKb_cons_ne hOK1
          have hne2 : d2 ≠ [] := blocksOKb_cons_ne hOK2
          have hpos1 : 0 < d1.length := List.length_pos.mpr hne1
          have hpos2 : 0 < d2.length := List.length_pos.mpr hne2
          have hs : s1 = s2 := by
            rcases Nat.lt_trichotomy s1 s2 with h | h | h
            · have h1 := hpk s1
              rw [blockPeek_at_start s1 d1 r1 hne1, blockPeek, if_pos h] at h1
              exact absurd h1 (by simp)
            · exact h
            · have h1 := hpk s2
              rw [blockPeek_at_start s2 d2 r2 hne2, blockPeek, if_pos h] at h1
              exact absurd h1 (by simp)
          subst hs
          have hlen : d1.length = d2.length := by
            rcases Nat.lt_trichotomy d1.length d2.length with h | h | h
            · have h1 := hpk (s1 + d1.length)
              rw [blockPeek, if_neg (by omega), if_neg (by omega)] at h1
              rw [blockPeek, if_neg (by omega), if_pos (by omega)] at h1
              have hr1 : blockPeek r1 (s1 + d1.length) = none :=
                blockPeek_before_all r1 _ (fun b hb => blocksOKb_all_lt hOK1 b hb)
              rw [hr1] at h1
              exact absurd h1 (by simp)
            · exact h
            · have h1 := hpk (s1 + d2.length)
              rw [blockPeek, if_neg (by omega), if_pos (by omega)] at h1
              rw [blockPeek, if_neg (by omega), if_neg (by omega)] at h1
              have hr2 : blockPeek r2 (s1 + d2.length) = none :=
                blockPeek_before_all r2 _ (fun b hb => blocksOKb_all_lt hOK2 b hb)
              rw [hr2] at h1
              exact absurd h1 (by simp)
          have hd : d1 = d2 := by
            apply List.ext_getElem hlen
            intro j hj1 hj2
            have h1 := hpk (s1 + j)
            rw [blockPeek, if_neg (by omega), if_pos (by omega)] at h1
            rw [blockPeek, if_neg (by omega), if_pos (by omega)] at h1
            have h2 : d1.getD (s1 + j - s1) 0 = d2.getD (s1 + j - s1) 0 := by
              exact Option.some_injective _ h1
            have hj : s1 + j - s1 = j := by omega
            rw [hj] at h2
            rw [List.getD_eq_getD_get?, List.get?_eq_getElem?,
              List.getElem?_eq_getElem hj1] at h2
            rw [List.getD_eq_getD_get?, List.get?_eq_getElem?,
              List.getElem?_eq_getElem hj2] at h2
            exact h2
          subst hd
          have htl : ∀ a, blockPeek r1 a = blockPeek r2 a := by
            intro a
            rcases Nat.lt_or_ge a (s1 + d1.length) with h | h
            · rw [blockPeek_before_all r1 a
                (fun b hb => by have := blocksOKb_all_lt hOK1 b hb; simp at this; omega),
                blockPeek_before_all r2 a
                (fun b hb => by have := blocksOKb_all_lt hOK2 b hb; simp at this; omega)]
            · have h1 := hpk a
              rw [blockPeek, if_neg (by omega), if_neg (by omega)] at h1
              rw [blockPeek, if_neg (by omega), if_neg (by omega)] at h1
              exact h1
          rw [ih r2 (blocksOKb_tail hOK1) (blocksOKb_tail hOK2) htl]

theorem roundTrip (bl : List Block) (hOK : blocksOKb bl = true) :
    values_to_blocks (blocks_to_values bl) 0 = bl := by
  apply blocksExt _ _ (values_to_blocks_OK _ 0) hOK
  intro a
  have h1 := blockPeek_values_to_blocks (blocks_to_values bl) 0 a
  have h2 := blocks_to_values_cellAt bl hOK a
  simp at h1
  rw [h1, h2]

theorem peek_eq_cellAt_values (m : Memory) (hOK : blocksOKb m.blocks = true) (a : Nat) :
    m.peek a = cellAt m.values a := by
  rw [Memory.peek, Memory.values, blocks_to_values_cellAt m.blocks hOK a]

theorem mkMem_blocks_eq (vs : List (Option Value)) (m : Memory)
    (hOK : blocksOKb m.blocks = true) (h : ∀ a, cellAt vs a = m.peek a) :
    (mkMem vs).blocks = m.blocks := by
  apply blocksExt _ _ (mkMem_blocksOK vs) hOK
  intro a
  have h1 := mkMem_peek vs a
  rw [Memory.peek] at h1
  rw [h1, h a, Memory.peek]

/-- A well-formed engine state for the untrimmed operation model: the block
list satisfies the §3 invariants and no trimming window is set. -/
def Memory.wf (m : Memory) : Prop :=
  blocksOKb m.blocks = true ∧ m.bstart = none ∧ m.bendex = none

instance (m : Memory) : Decidable m.wf := by
  unfold Memory.wf
  infer_instance

theorem cellAt_eq_getElem_of_lt (l : List (Option Value)) (i : Nat) (h : i < l.length) :
    cellAt l i = l[i] := by
  rw [cellAt_eq_getElem, List.getElem?_eq_getElem h]
  rfl

theorem zipWith_getElem_some {α β γ : Type} (f : α → β → γ) (l1 : List α) (l2 : List β)
    (i : Nat) (h1 : i < l1.length) (h2 : i < l2.length) :
    (List.zipWith f l1 l2)[i]? = some (f l1[i] l2[i]) := by
  rw [List.getElem?_zipWith, List.getElem?_eq_getElem h1, List.getElem?_eq_getElem h2]

theorem peek_clear (m : Memory) (s e a : Nat) :
    (m.clear s e).peek a = if s ≤ a ∧ a < e then none else cellAt m.values a := by
  rw [Memory.clear, mkMem_peek, setRange_cellAt, List.length_replicate]
  by_cases h : s ≤ a ∧ a < s + (e - s)
  · rw [if_pos h, if_pos (by omega), cellAt_replicate]
  · rw [if_neg h]
    by_cases h2 : s ≤ a ∧ a < e
    · exact absurd ⟨h2.1, by omega⟩ h
    · rw [if_neg h2]

theorem peek_fill (m : Memory) (s e : Nat) (pat : List Value) (a : Nat) :
    (m.fill s e pat).peek a =
      if s ≤ a ∧ a < e then some (pat.getD ((a - s) % pat.length) 0)
      else cellAt m.values a := by
  rw [Memory.fill, mkMem_peek, setRange_cellAt, List.length_map, tile_length]
  by_cases h : s ≤ a ∧ a < s + (e - s)
  · rw [if_pos h, if_pos (by omega), cellAt_map_some, tile_getElem _ _ _ (by omega)]
  · rw [if_neg h]
    by_cases h2 : s ≤ a ∧ a < e
    · exact absurd ⟨h2.1, by omega⟩ h
    · rw [if_neg h2]

theorem peek_flood (m : Memory) (s e : Nat) (pat : List Value) (a : Nat) :
    (m.flood s e pat).peek a =
      if s ≤ a ∧ a < e ∧ cellAt m.values a = none
      then some (pat.getD ((a - s) % pat.length) 0)
      else cellAt m.values a := by
  have hlen : (List.zipWith (fun o t => o <|> some t) (region m.values s e)
      (tile pat (e - s))).length = e - s := by
    rw [List.length_zipWith, region_length, tile_length]
    omega
  rw [Memory.flood, mkMem_peek, setRange_cellAt, hlen]
  by_cases h : s ≤ a ∧ a < s + (e - s)
  · rw [if_pos h]
    have hi : a - s < (region m.values s e).length := by rw [region_length]; omega
    have ht : a - s < (tile pat (e - s)).length := by rw [tile_length]; omega
    rw [cellAt_eq_getElem, zipWith_getElem_some _ _ _ _ hi ht]
    have hrg : (region m.values s e)[a - s] = cellAt m.values a := by
      rw [← cellAt_eq_getElem_of_lt _ _ hi, region_cellAt, if_pos (by omega)]
      congr 1
      omega
    have htl : (tile pat (e - s))[a - s] = pat.getD ((a - s) % pat.length) 0 := by
      have := tile_getElem pat (e - s) (a - s) (by omega)
      rw [List.getElem?_eq_getElem ht] at this
      exact Option.some_injective _ this
    rw [hrg, htl]
    by_cases hg : cellAt m.values a = none
    · rw [hg, if_pos ⟨h.1, by omega, rfl⟩]
      rfl
    · rw [if_neg (by intro hc; exact hg hc.2.2)]
      cases hcell : cellAt m.values a with
      | none => exact absurd hcell hg
      | some v => rfl
  · rw [if_neg h]
    by_cases h2 : s ≤ a ∧ a < e ∧ cellAt m.values a = none
    · exact absurd ⟨h2.1, by omega⟩ h
    · rw [if_neg h2]

theorem peek_poke (m : Memory) (x : Nat) (v : Option Value) (a : Nat) :
    (m.poke x v).peek a = if a = x then v else cellAt m.values a := by
  rw [Memory.poke, mkMem_peek, setRange_cellAt, List.length_singleton]
  by_cases h : a = x
  · rw [if_pos (by omega), if_pos h]
    have : a - x = 0 := by omega
    rw [this, cellAt_cons_zero]
  · rw [if_neg (by omega), if_neg h]

theorem peek_write (m : Memory) (x : Nat) (data : List Value) (a : Nat) :
    (m.write x data).peek a =
      if x ≤ a ∧ a < x + data.length then some (data.getD (a - x) 0)
      else cellAt m.values a := by
  rw [Memory.write, mkMem_peek, setRange_cellAt, List.length_map]
  by_cases h : x ≤ a ∧ a < x + data.length
  · rw [if_pos h, if_pos h, cellAt_map_some, getElem?_eq_some_getD _ _ (by omega)]
  · rw [if_neg h, if_neg h]

/-- Block-list introspection (spec §6): the literal ordered pairs. -/
def Memory.to_blocks (m : Memory) : List Block :=
  m.blocks

/-- Mutating operations of the engine covered by the invariant-preservation
property (spec §8), with their arguments. -/
inductive Op where
  | write (a : Nat) (data : List Value)
  | fill (s e : Nat) (pat : List Value)
  | flood (s e : Nat) (pat : List Value)
  | insert (a : Nat) (data : List Value)
  | delete (s e : Nat)
  | clear (s e : Nat)
  | crop (s e : Nat)
  | reserve (a n : Nat)
  | shift (off : Nat)
  | poke (a : Nat) (v : Option Value)
  | append (v : Value)
  | pop (a : Nat)
  | popitem

/-- Dispatch of an operation to the engine. -/
def Memory.applyOp (m : Memory) : Op → Memory
  | .write a data => m.write a data
  | .fill s e pat => m.fill s e pat
  | .flood s e pat => m.flood s e pat
  | .insert a data => m.insert a data
  | .delete s e => m.delete s e
  | .clear s e => m.clear s e
  | .crop s e => m.crop s e
  | .reserve a n => m.reserve a n
  | .shift off => m.shift off
  | .poke a v => m.poke a v
  | .append v => m.append v
  | .pop a => m.pop a
  | .popitem => m.popitem

/-- Argument validity of an operation on a given state: fill and flood demand
a nonempty pattern (`"non-empty pattern required"`), popitem demands stored
content (`KeyError: "empty"`); the other arguments are unrestricted. -/
def argsOKb (m : Memory) : Op → Bool
  | .fill _ _ pat => !pat.isEmpty
  | .flood _ _ pat => !pat.isEmpty
  | .popitem => !m.blocks.isEmpty
  | _ => true

/-- Stepwise argument validity of a whole operation sequence. -/
def seqOKb : Memory → List Op → Bool
  | _, [] => true
  | m, op :: rest => argsOKb m op && seqOKb (m.applyOp op) rest

theorem blocksOK_shift : ∀ (bl : List Block) (off : Nat), blocksOKb bl = true →
    blocksOKb (bl.map fun b => (b.1 + off, b.2)) = true := by
  intro bl off
  match bl with
  | [] => intro h; exact h
  | [b] => intro h; simpa [blocksOKb] using h
  | b1 :: b2 :: rest =>
      intro h
      simp [blocksOKb] at h ⊢
      refine ⟨⟨h.1.1, by omega⟩, ?_⟩
      exact blocksOK_shift (b2 :: rest) off h.2

theorem applyOp_wf (m : Memory) (op : Op) (h : m.wf) : (m.applyOp op).wf := by
  cases op with
  | shift off =>
      refine ⟨blocksOK_shift m.blocks off h.1, ?_, ?_⟩
      · rw [Memory.applyOp, Memory.shift]; exact h.2.1
      · rw [Memory.applyOp, Memory.shift]; exact h.2.2
  | write a data => exact ⟨mkMem_blocksOK _, rfl, rfl⟩
  | fill s e pat => exact ⟨mkMem_blocksOK _, rfl, rfl⟩
  | flood s e pat => exact ⟨mkMem_blocksOK _, rfl, rfl⟩
  | insert a data => exact ⟨mkMem_blocksOK _, rfl, rfl⟩
  | delete s e => exact ⟨mkMem_blocksOK _, rfl, rfl⟩
  | clear s e => exact ⟨mkMem_blocksOK _, rfl, rfl⟩
  | crop s e => exact ⟨mkMem_blocksOK _, rfl, rfl⟩
  | reserve a n => exact ⟨mkMem_blocksOK _, rfl, rfl⟩
  | poke a v => exact ⟨mkMem_blocksOK _, rfl, rfl⟩
  | append v => exact ⟨mkMem_blocksOK _, rfl, rfl⟩
  | pop a => exact ⟨mkMem_blocksOK _, rfl, rfl⟩
  | popitem => exact ⟨mkMem_blocksOK _, rfl, rfl⟩

theorem foldl_applyOp_wf : ∀ (ops : List Op) (m : Memory), m.wf →
    (ops.foldl Memory.applyOp m).wf := by
  intro ops
  induction ops with
  | nil => intro m h; exact h
  | cons op rest ih =>
      intro m h
      rw [List.foldl_cons]
      exact ih (m.applyOp op) (applyOp_wf m op h)

theorem blocksOK_all_ne : ∀ (bl : List Block), blocksOKb bl = true → ∀ b ∈ bl, b.2 ≠ [] := by
  intro bl
  induction bl with
  | nil => intro _ b hb; exact absurd hb (List.not_mem_nil b)
  | cons b0 rest ih =>
      intro hOK b hb
      rcases List.mem_cons.mp hb with h1 | h1
      · rw [h1]; exact blocksOKb_cons_ne hOK
      · exact ih (blocksOKb_tail hOK) b h1

theorem blocksOK_head_le : ∀ (bl : List Block) (b0 : Block), blocksOKb (b0 :: bl) = true →
    ∀ b ∈ b0 :: bl, b0.1 ≤ b.1 := by
  intro bl b0 h b hb
  rcases List.mem_cons.mp hb with h1 | h1
  · rw [h1]
  · have := blocksOKb_all_lt h b h1
    omega

theorem blocksOK_end_le_lastEnd : ∀ (bl : List Block), blocksOKb bl = true →
    ∀ bLast, bl.getLast? = some bLast →
    ∀ b ∈ bl, b.1 + b.2.length ≤ bLast.1 + bLast.2.length := by
  intro bl
  induction bl with
  | nil => intro _ bLast h; simp at h
  | cons b0 rest ih =>
      intro hOK bLast hlast b hb
      match rest with
      | [] =>
          simp at hlast
          rcases List.mem_cons.mp hb with h1 | h1
          · rw [h1, hlast]
          · exact absurd h1 (List.not_mem_nil b)
      | b1 :: rest2 =>
          rw [List.getLast?_cons_cons] at hlast
          rcases List.mem_cons.mp hb with h1 | h1
          · have hsep := blocksOKb_sep hOK
            have hb1 := ih (blocksOKb_tail hOK) bLast hlast b1 (List.mem_cons_self _ _)
            rw [h1]
            omega
          · exact ih (blocksOKb_tail hOK) bLast hlast b h1

theorem checkBlocks_none : ∀ (bl : List Block) (prev : Option Nat) (lo hi : Nat),
    blocksOKb bl = true →
    (∀ b ∈ bl, lo ≤ b.1) →
    (∀ b ∈ bl, b.1 + b.2.length ≤ hi) →
    (∀ p, prev = some p → ∀ b ∈ bl, p < b.1) →
    checkBlocks bl prev lo hi = none := by
  intro bl
  induction bl with
  | nil => intro prev lo hi _ _ _ _; rw [checkBlocks]
  | cons b0 rest ih =>
      intro prev lo hi hOK hlo hhi hprev
      obtain ⟨s, d⟩ := b0
      have hne : d ≠ [] := blocksOKb_cons_ne hOK
      have hdlen : 0 < d.length := List.length_pos.mpr hne
      have h1 : prevOverlapsb prev s = false := by
        cases prev with
        | none => rfl
        | some p =>
            have := hprev p rfl (s, d) (List.mem_cons_self _ _)
            simp [prevOverlapsb]
            omega
      rw [checkBlocks, h1]
      simp only [Bool.false_eq_true, if_false]
      rw [if_neg (by omega), if_neg (by
        push_neg
        constructor
        · exact hlo (s, d) (List.mem_cons_self _ _)
        · exact hhi (s, d) (List.mem_cons_self _ _))]
      apply ih (some (s + d.length)) lo hi (blocksOKb_tail hOK)
      · intro b hb; exact hlo b (List.mem_cons_of_mem _ hb)
      · intro b hb; exact hhi b (List.mem_cons_of_mem _ hb)
      · intro p hp b hb
        have := blocksOKb_all_lt hOK b hb
        simp at this
        have hpe := Option.some.inj hp
        omega

theorem validate_none_of_wf (m : Memory) (h : m.wf) : m.validate = none := by
  obtain ⟨hOK, hbs, hbe⟩ := h
  rw [Memory.validate]
  have hstart : m.start = m.contentStart := by rw [Memory.start, hbs]; rfl
  have hendex : m.endex = m.contentEndex := by rw [Memory.endex, hbe]; rfl
  match hbl : m.blocks with
  | [] =>
      have hcs : m.contentStart = 0 := by rw [Memory.contentStart, hbl]; rfl
      have hce : m.contentEndex = 0 := by rw [Memory.contentEndex, hbl]; rfl
      simp only [List.isEmpty_nil, if_true]
      rw [if_neg (by omega)]
  | b0 :: rest =>
      rw [hbl] at hOK
      have hcs : m.contentStart = b0.1 := by rw [Memory.contentStart, hbl]; rfl
      have hlast : (b0 :: rest).getLast? = some ((b0 :: rest).getLast (by simp)) :=
        List.getLast?_eq_getLast _ _
      have hmem : (b0 :: rest).getLast (by simp) ∈ b0 :: rest := List.getLast_mem _
      have hce : m.contentEndex =
          ((b0 :: rest).getLast (by simp)).1 + ((b0 :: rest).getLast (by simp)).2.length := by
        rw [Memory.contentEndex, hbl, hlast]
      have hlt : b0.1 <
          ((b0 :: rest).getLast (by simp)).1 + ((b0 :: rest).getLast (by simp)).2.length := by
        have h1 := blocksOK_head_le rest b0 hOK _ hmem
        have hpos : 0 < ((b0 :: rest).getLast (by simp)).2.length :=
          List.length_pos.mpr (blocksOK_all_ne (b0 :: rest) hOK _ hmem)
        omega
      simp only [List.isEmpty_cons, Bool.false_eq_true, if_false]
      rw [if_neg (by omega)]
      apply checkBlocks_none (b0 :: rest) none m.start m.endex hOK
      · intro b hb
        rw [hstart, hcs]
        exact blocksOK_head_le rest b0 hOK b hb
      · intro b hb
        rw [hendex, hce]
        exact blocksOK_end_le_lastEnd (b0 :: rest) hOK _ hlast b hb
      · intro p hp
        exact absurd hp (by simp)

theorem values_cellAt_mkMem (X : List (Option Value)) (a : Nat) :
    cellAt (mkMem X).values a = cellAt X a := by
  rw [← peek_eq_cellAt_values _ (mkMem_blocksOK X) a, mkMem_peek]

theorem clear_blocks_of_ge (m : Memory) (s e : Nat) (hOK : blocksOKb m.blocks = true)
    (h : e ≤ s) : (m.clear s e).blocks = m.blocks := by
  apply blocksExt _ _ (mkMem_blocksOK _) hOK
  intro a
  have h1 := peek_clear m s e a
  rw [if_neg (by omega)] at h1
  rw [Memory.peek, Memory.clear] at h1
  rw [h1, ← peek_eq_cellAt_values m hOK a, Memory.peek]

/-- C9: for every valid Memory and addresses with `endex < start`, extract and
cut do not fail: each returns a Memory with no blocks whose span is the empty
interval `(start, start)`, and cut leaves the source unchanged. -/
theorem claim_C9 (m : Memory) (s e : Nat) (hwf : m.wf) (h : e < s) :
    (m.extract s e).to_blocks = [] ∧ (m.extract s e).span = (s, s) ∧
    (m.cut s e).1.to_blocks = [] ∧ (m.cut s e).1.span = (s, s) ∧
    (m.cut s e).2.to_blocks = m.to_blocks := by
  have hreg : region m.values s e = [] := by
    rw [← List.length_eq_zero, region_length]
    omega
  have hmax : max s e = s := by omega
  have hext1 : (m.extract s e).to_blocks = [] := by
    rw [Memory.to_blocks, Memory.extract, hreg, values_to_blocks_nil]
  have hext2 : (m.extract s e).span = (s, s) := by
    rw [Memory.span, Memory.extract, Memory.start, Memory.endex, hmax]
    rfl
  refine ⟨hext1, hext2, hext1, hext2, ?_⟩
  rw [Memory.cut, Memory.to_blocks, Memory.to_blocks]
  exact clear_blocks_of_ge m s e hwf.1 (by omega)

/-- Witness for C9 at a concrete memory and inverted range. -/
theorem claim_C9_witness :
    Memory.wf (Memory.from_blocks [(1, [65, 66]), (5, [67])]) ∧ (0 : Nat) < 2 ∧
    ((Memory.from_blocks [(1, [65, 66]), (5, [67])]).extract 2 0).to_blocks = [] ∧
    ((Memory.from_blocks [(1, [65, 66]), (5, [67])]).extract 2 0).span = (2, 2) ∧
    ((Memory.from_blocks [(1, [65, 66]), (5, [67])]).cut 2 0).2.to_blocks =
      (Memory.from_blocks [(1, [65, 66]), (5, [67])]).to_blocks := by
  have h := claim_C9 (Memory.from_blocks [(1, [65, 66]), (5, [67])]) 2 0 (by decide) (by decide)
  exact ⟨by decide, by decide, h.1, h.2.1, h.2.2.2.2⟩

theorem blockPeek_mem_some : ∀ (bl : List Block), blocksOKb bl = true →
    ∀ b ∈ bl, ∀ a, b.1 ≤ a → a < b.1 + b.2.length →
    blockPeek bl a = some (b.2.getD (a - b.1) 0) := by
  intro bl
  induction bl with
  | nil => intro _ b hb; exact absurd hb (List.not_mem_nil b)
  | cons b0 rest ih =>
      intro hOK b hb a ha1 ha2
      obtain ⟨s, d⟩ := b0
      rcases List.mem_cons.mp hb with h1 | h1
      · rw [h1] at ha1 ha2 ⊢
        simp only [] at ha1 ha2
        rw [blockPeek, if_neg (by omega), if_pos (by omega)]
      · have hlt := blocksOKb_all_lt hOK b h1
        simp only [] at hlt
        rw [blockPeek, if_neg (by omega), if_neg (by omega)]
        exact ih (blocksOKb_tail hOK) b h1 a ha1 ha2

theorem equalSpanGo_left (bl : List Block) (prev : Option Nat) (a : Nat)
    (h : ∀ b ∈ bl, a < b.1) : (equalSpanGo bl prev a).1 = prev := by
  cases bl with
  | nil => rfl
  | cons b0 rest =>
      obtain ⟨s, d⟩ := b0
      have hs := h (s, d) (List.mem_cons_self _ _)
      simp only [] at hs
      rw [equalSpanGo, if_pos hs]

theorem equalSpanGo_right : ∀ (bl : List Block) (prev : Option Nat) (a : Nat),
    blocksOKb bl = true → blockPeek bl a = none → (∀ b ∈ bl, b.1 ≤ a) →
    (equalSpanGo bl prev a).2.1 = none := by
  intro bl
  induction bl with
  | nil => intro prev a _ _ _; rfl
  | cons b0 rest ih =>
      intro prev a hOK hpk hle
      obtain ⟨s, d⟩ := b0
      have hs : s ≤ a := by
        have := hle (s, d) (List.mem_cons_self _ _)
        simpa using this
      rw [blockPeek, if_neg (by omega)] at hpk
      by_cases h2 : a < s + d.length
      · rw [if_pos h2] at hpk
        exact absurd hpk (by simp)
      · rw [if_neg h2] at hpk
        rw [equalSpanGo, if_neg (by omega), if_neg (by omega)]
        exact ih (some (s + d.length)) a (blocksOKb_tail hOK) hpk
          (fun b hb => hle b (List.mem_cons_of_mem _ hb))

/-- C10: for a Memory with no content, `equal_span(address)` is
`(None, None, None)` at every address; in general, when the queried address
lies in a gap unbounded on a side (no block stored on that side), that side of
the span is `None`. -/
theorem claim_C10 :
    (∀ a, (Memory.from_blocks []).equal_span a = (none, none, none)) ∧
    (∀ (m : Memory) (a : Nat), m.wf → m.peek a = none →
      ((∀ b ∈ m.blocks, a < b.1 + b.2.length) → (m.equal_span a).1 = none) ∧
      ((∀ b ∈ m.blocks, b.1 ≤ a) → (m.equal_span a).2.1 = none)) := by
  constructor
  · intro a; rfl
  · intro m a hwf hpk
    constructor
    · intro h
      rw [Memory.equal_span]
      apply equalSpanGo_left
      intro b hb
      by_contra hc
      push_neg at hc
      have hsome := blockPeek_mem_some m.blocks hwf.1 b hb a hc (h b hb)
      rw [Memory.peek] at hpk
      rw [hpk] at hsome
      exact absurd hsome (by simp)
    · intro h
      rw [Memory.equal_span]
      exact equalSpanGo_right m.blocks none a hwf.1 hpk h

/-- Witness for C10: unbounded gap sides at concrete addresses. -/
theorem claim_C10_witness :
    (Memory.from_blocks []).equal_span 0 = (none, none, none) ∧
    Memory.wf (Memory.from_blocks [(3, [7])]) ∧
    (Memory.from_blocks [(3, [7])]).peek 0 = none ∧
    ((Memory.from_blocks [(3, [7])]).equal_span 0).1 = none ∧
    (Memory.from_blocks [(3, [7])]).peek 5 = none ∧
    ((Memory.from_blocks [(3, [7])]).equal_span 5).2.1 = none := by
  refine ⟨claim_C10.1 0, by decide, by decide, ?_, by decide, ?_⟩
  · exact (claim_C10.2 (Memory.from_blocks [(3, [7])]) 0 (by decide) (by decide)).1
      (by decide)
  · exact (claim_C10.2 (Memory.from_blocks [(3, [7])]) 5 (by decide) (by decide)).2
      (by decide)

theorem checkBlocks_sound : ∀ (bl : List Block) (prev : Option Nat) (lo hi : Nat),
    checkBlocks bl prev lo hi = none →
    blocksOKb bl = true ∧ (∀ p c, prev = some p → bl.head? = some c → p < c.1) := by
  intro bl
  induction bl with
  | nil =>
      intro prev lo hi _
      exact ⟨rfl, fun p c _ hc => by simp at hc⟩
  | cons b0 rest ih =>
      intro prev lo hi h
      obtain ⟨s, d⟩ := b0
      rw [checkBlocks] at h
      by_cases h1 : prevOverlapsb prev s = true
      · rw [if_pos h1] at h
        exact absurd h (by simp)
      · rw [if_neg h1] at h
        by_cases h2 : s + d.length ≤ s
        · rw [if_pos h2] at h
          exact absurd h (by simp)
        · rw [if_neg h2] at h
          by_cases h3 : s < lo ∨ hi < s + d.length
          · rw [if_pos h3] at h
            exact absurd h (by simp)
          · rw [if_neg h3] at h
            obtain ⟨hOKrest, hprev⟩ := ih (some (s + d.length)) lo hi h
            constructor
            · apply blocksOKb_cons_of (s, d) rest
              · exact List.ne_nil_of_length_pos (by show 0 < d.length; omega)
              · intro c hc
                have := hprev (s + d.length) c rfl hc
                simpa using this
              · exact hOKrest
            · intro p c hp hc
              rw [List.head?_cons] at hc
              rw [hp] at h1
              simp [prevOverlapsb] at h1
              rw [← Option.some.inj hc]
              simpa using h1

theorem validate_none_sound (m : Memory) (h : m.validate = none) :
    blocksOKb m.blocks = true := by
  rw [Memory.validate] at h
  by_cases he : m.blocks.isEmpty = true
  · have hbl : m.blocks = [] := List.isEmpty_iff.mp he
    rw [hbl]
    rfl
  · rw [if_neg he] at h
    by_cases h2 : m.endex ≤ m.start
    · rw [if_pos h2] at h
      exact absurd h (by simp)
    · rw [if_neg h2] at h
      exact (checkBlocks_sound m.blocks none m.start m.endex h).1

/-- C7 counterexample: on the unsorted block list `[[10, b'ABC'], [5, b'xyz']]`
(built with validation skipped), `validate()` reports `"invalid bounds"` — the
overall span derived from the first and last blocks is inverted — and not the
claimed `"invalid block interleaving"`; this matches
`test_validate_invalid_bounds` in `src/tests/_common.py`. -/
theorem claim_C7_counterexample :
    (Memory.from_blocks [(10, [65, 66, 67]), (5, [120, 121, 122])]).validate =
      some "invalid bounds" ∧
    (Memory.from_blocks [(10, [65, 66, 67]), (5, [120, 121, 122])]).validate ≠
      some "invalid block interleaving" := by
  constructor <;> decide

/-- C7 (amended): `validate()` reports an error on every structurally invalid
block list (if it reports none, the invariants hold); an adjacent overlapping
or touching pair within consistent overall bounds yields
`"invalid block interleaving"`, but an unsorted list may instead yield
`"invalid bounds"` (inverted overall span) or `"invalid block bounds"` (a
block beyond the span derived from the first and last blocks); `"invalid
block bounds"` also flags a block outside the trim window. -/
theorem claim_C7 :
    (∀ m : Memory, m.validate = none → blocksOKb m.blocks = true) ∧
    (Memory.from_blocks [(2, [65, 66, 67]), (5, [120, 121, 122])]).validate =
      some "invalid block interleaving" ∧
    (Memory.from_blocks [(2, [65, 66, 67]), (3, [120, 121, 122])]).validate =
      some "invalid block interleaving" ∧
    (Memory.from_blocks [(10, [65, 66, 67]), (5, [120, 121, 122])]).validate =
      some "invalid bounds" ∧
    (Memory.from_blocks [(0, [49, 50, 51]), (10, [65, 66, 67]),
      (5, [120, 121, 122])]).validate = some "invalid block bounds" ∧
    (Memory.mk [(1, [65, 66, 67])] (some 3) (some 6)).validate =
      some "invalid block bounds" ∧
    (Memory.mk [(5, [120, 121, 122])] (some 3) (some 6)).validate =
      some "invalid block bounds" := by
  exact ⟨validate_none_sound, by decide, by decide, by decide, by decide, by decide, by decide⟩

/-- Witness for C7: the first conjunct applied to a concrete valid memory. -/
theorem claim_C7_witness :
    (Memory.from_blocks [(2, [50, 51, 52]), (8, [56, 57, 65])]).validate = none ∧
    blocksOKb (Memory.from_blocks [(2, [50, 51, 52]), (8, [56, 57, 65])]).blocks = true := by
  refine ⟨by decide, ?_⟩
  exact claim_C7.1 (Memory.from_blocks [(2, [50, 51, 52]), (8, [56, 57, 65])]) (by decide)

theorem viewGo_error (bl : List Block) : ∀ (s e : Nat), blocksOKb bl = true →
    (∃ a, s ≤ a ∧ a < e ∧ blockPeek bl a = none) →
    viewGo bl s e = Except.error "non-contiguous data within range" := by
  induction bl with
  | nil => intro s e _ _; rfl
  | cons b0 rest ih =>
      intro s e hOK hex
      obtain ⟨a, ha1, ha2, hpk⟩ := hex
      obtain ⟨bs, d⟩ := b0
      rw [viewGo]
      by_cases h1 : bs + d.length ≤ s
      · rw [if_pos h1]
        apply ih s e (blocksOKb_tail hOK)
        refine ⟨a, ha1, ha2, ?_⟩
        rw [blockPeek, if_neg (by omega), if_neg (by omega)] at hpk
        exact hpk
      · rw [if_neg h1]
        by_cases h2 : s < bs
        · rw [if_pos h2]
        · rw [if_neg h2]
          by_cases h3 : e ≤ bs + d.length
          · exfalso
            rw [blockPeek, if_neg (by omega), if_pos (by omega)] at hpk
            exact absurd hpk (by simp)
          · rw [if_neg h3]

theorem viewGo_ok (bl : List Block) : ∀ (s e : Nat), blocksOKb bl = true → s < e →
    (∀ a, s ≤ a → a < e → (blockPeek bl a).isSome) →
    viewGo bl s e =
      Except.ok ((List.range' s (e - s)).map fun a => (blockPeek bl a).getD 0) := by
  induction bl with
  | nil =>
      intro s e _ hse hall
      have := hall s (Nat.le_refl s) hse
      rw [blockPeek] at this
      exact absurd this (by simp)
  | cons b0 rest ih =>
      intro s e hOK hse hall
      obtain ⟨bs, d⟩ := b0
      rw [viewGo]
      by_cases h1 : bs + d.length ≤ s
      · rw [if_pos h1]
        have hres := ih s e (blocksOKb_tail hOK) hse (fun a ha1 ha2 => by
          have := hall a ha1 ha2
          rw [blockPeek, if_neg (by omega), if_neg (by omega)] at this
          exact this)
        rw [hres]
        congr 1
        apply List.map_congr_left
        intro a ha
        rw [List.mem_range'_1] at ha
        rw [blockPeek, if_neg (by omega), if_neg (by omega)]
      · rw [if_neg h1]
        by_cases h2 : s < bs
        · exfalso
          have := hall s (Nat.le_refl s) hse
          rw [blockPeek, if_pos h2] at this
          exact absurd this (by simp)
        · rw [if_neg h2]
          by_cases h3 : e ≤ bs + d.length
          · rw [if_pos h3]
            congr 1
            apply List.ext_getElem
            · rw [List.length_take, List.length_drop, List.length_map, List.length_range']
              omega
            · intro i hi1 hi2
              rw [List.getElem_take, List.getElem_drop]
              rw [List.length_map, List.length_range'] at hi2
              rw [List.getElem_map, List.getElem_range']
              rw [blockPeek, if_neg (by omega), if_pos (by omega)]
              rw [List.length_take, List.length_drop] at hi1
              have hj : s + 1 * i - bs = (s - bs) + i := by omega
              rw [hj, Option.getD_some, List.getD_eq_getD_get?, List.get?_eq_getElem?,
                List.getElem?_eq_getElem (by omega)]
              rfl
          · exfalso
            have hnone : blockPeek ((bs, d) :: rest) (bs + d.length) = none := by
              rw [blockPeek, if_neg (by omega), if_neg (by omega)]
              exact blockPeek_before_all rest _ (fun b hb => blocksOKb_all_lt hOK b hb)
            have := hall (bs + d.length) (by omega) (by omega)
            rw [hnone] at this
            exact absurd this (by simp)

/-- C6: `view(start, endex)` fails with the error
`"non-contiguous data within range"` exactly when some address of the span is
a gap; on a fully defined span it returns exactly the stored bytes. -/
theorem claim_C6 (m : Memory) (s e : Nat) (hwf : m.wf) :
    (m.view s e = Except.error "non-contiguous data within range" ↔
      ∃ a, s ≤ a ∧ a < e ∧ m.peek a = none) ∧
    ((∀ a, s ≤ a → a < e → (m.peek a).isSome) →
      m.view s e = Except.ok ((List.range' s (e - s)).map fun a => (m.peek a).getD 0)) := by
  rw [Memory.view]
  by_cases hse : s < e
  · rw [if_pos hse]
    constructor
    · constructor
      · intro herr
        by_contra hex
        push_neg at hex
        have hall : ∀ a, s ≤ a → a < e → (blockPeek m.blocks a).isSome := by
          intro a ha1 ha2
          have hne := hex a ha1 ha2
          rw [Memory.peek] at hne
          cases hpk : blockPeek m.blocks a with
          | none => exact absurd hpk hne
          | some v => rfl
        rw [viewGo_ok m.blocks s e hwf.1 hse hall] at herr
        exact absurd herr (by simp)
      · intro hex
        exact viewGo_error m.blocks s e hwf.1 hex
    · intro hall
      exact viewGo_ok m.blocks s e hwf.1 hse hall
  · rw [if_neg hse]
    refine ⟨⟨fun h => absurd h (by simp), fun hex => ?_⟩, fun _ => ?_⟩
    · obtain ⟨a, ha1, ha2, _⟩ := hex
      omega
    · have : e - s = 0 := by omega
      rw [this]
      rfl

/-- Witness for C6 at a concrete memory and spans. -/
theorem claim_C6_witness :
    Memory.wf (Memory.from_blocks [(1, [65, 66, 67, 68]), (6, [36]), (8, [120, 121, 122])]) ∧
    (Memory.from_blocks [(1, [65, 66, 67, 68]), (6, [36]),
      (8, [120, 121, 122])]).view 0 6 = Except.error "non-contiguous data within range" ∧
    (Memory.from_blocks [(1, [65, 66, 67, 68]), (6, [36]),
      (8, [120, 121, 122])]).view 2 5 = Except.ok [66, 67, 68] := by
  refine ⟨by decide, ?_, ?_⟩
  · exact (claim_C6 (Memory.from_blocks [(1, [65, 66, 67, 68]), (6, [36]),
      (8, [120, 121, 122])]) 0 6 (by decide)).1.mpr ⟨0, by decide, by decide, by decide⟩
  · have h := (claim_C6 (Memory.from_blocks [(1, [65, 66, 67, 68]), (6, [36]),
      (8, [120, 121, 122])]) 2 5 (by decide)).2 (by decide)
    rw [h]
    congr 1

/-- Number of spans of a span list containing a given address. -/
def countCover (a : Nat) (ps : List (Nat × Nat)) : Nat :=
  ps.countP fun p => decide (p.1 ≤ a) && decide (a < p.2)

theorem countCover_nil (a : Nat) : countCover a [] = 0 := rfl

theorem countCover_cons (a : Nat) (p : Nat × Nat) (ps : List (Nat × Nat)) :
    countCover a (p :: ps) =
      (if p.1 ≤ a ∧ a < p.2 then 1 else 0) + countCover a ps := by
  rw [countCover, List.countP_cons, countCover]
  by_cases h : p.1 ≤ a ∧ a < p.2
  · rw [if_pos (by simp [h.1, h.2]), if_pos h]
    omega
  · rw [if_neg (by
      intro hc
      simp at hc
      exact h hc), if_neg h]
    omega

theorem countCover_zero_of_ge (a k : Nat) (ps : List (Nat × Nat))
    (hk : ∀ p ∈ ps, k ≤ p.1) (ha : a < k) : countCover a ps = 0 := by
  rw [countCover, List.countP_eq_zero]
  intro p hp
  have := hk p hp
  simp
  omega

theorem cond_shift (P : Option Value → Prop) [DecidablePred P] (x : Option Value)
    (rest : List (Option Value)) (off a : Nat) (h : a ≠ off) :
    (if off ≤ a ∧ a - off < (x :: rest).length ∧ P (cellAt (x :: rest) (a - off))
      then 1 else 0) =
    (if off + 1 ≤ a ∧ a - (off + 1) < rest.length ∧ P (cellAt rest (a - (off + 1)))
      then (1 : Nat) else 0) := by
  rcases Nat.lt_or_ge a off with h1 | h1
  · rw [if_neg (by omega), if_neg (by omega)]
  · have h2 : a - off = (a - (off + 1)) + 1 := by omega
    rw [h2, cellAt_cons_succ]
    by_cases hc : off + 1 ≤ a ∧ a - (off + 1) < rest.length ∧ P (cellAt rest (a - (off + 1)))
    · rw [if_pos hc, if_pos ⟨by omega, by simp only [List.length_cons]; omega, hc.2.2⟩]
    · rw [if_neg hc, if_neg (by
        intro hcc
        exact hc ⟨by omega, by
          have := hcc.2.1
          simp only [List.length_cons] at this
          omega, hcc.2.2⟩)]

theorem someRuns_nil (off : Nat) : someRuns [] off = [] := rfl

theorem someRuns_none (rest : List (Option Value)) (off : Nat) :
    someRuns (none :: rest) off = someRuns rest (off + 1) := rfl

theorem someRuns_some_nil (v : Value) (rest : List (Option Value)) (off : Nat)
    (h : someRuns rest (off + 1) = []) :
    someRuns (some v :: rest) off = [(off, off + 1)] := by
  rw [someRuns, h]

theorem someRuns_some_cons (v : Value) (rest : List (Option Value)) (off s e : Nat)
    (rs : List (Nat × Nat)) (h : someRuns rest (off + 1) = (s, e) :: rs) :
    someRuns (some v :: rest) off =
      if s = off + 1 then (off, e) :: rs else (off, off + 1) :: (s, e) :: rs := by
  rw [someRuns, h]

theorem someRuns_ne_nil (v : Value) (rest : List (Option Value)) (off : Nat) :
    someRuns (some v :: rest) off ≠ [] := by
  cases h : someRuns rest (off + 1) with
  | nil => rw [someRuns_some_nil v rest off h]; simp
  | cons p rs =>
      obtain ⟨s, e⟩ := p
      rw [someRuns_some_cons v rest off s e rs h]
      by_cases hs : s = off + 1 <;> simp [hs]

theorem someRuns_bounds : ∀ (l : List (Option Value)) (off : Nat),
    ∀ p ∈ someRuns l off, off ≤ p.1 ∧ p.1 < p.2 ∧ p.2 ≤ off + l.length := by
  intro l
  induction l with
  | nil =>
      intro off p hp
      rw [someRuns_nil] at hp
      exact absurd hp (List.not_mem_nil p)
  | cons x rest ih =>
      intro off p hp
      cases x with
      | none =>
          rw [someRuns_none] at hp
          have := ih (off + 1) p hp
          simp only [List.length_cons]
          omega
      | some v =>
          cases hrec : someRuns rest (off + 1) with
          | nil =>
              rw [someRuns_some_nil v rest off hrec, List.mem_singleton] at hp
              rw [hp]
              simp only [List.length_cons]
              omega
          | cons q rs =>
              obtain ⟨s, e⟩ := q
              rw [someRuns_some_cons v rest off s e rs hrec] at hp
              have hhead := ih (off + 1) (s, e) (by rw [hrec]; exact List.mem_cons_self _ _)
              by_cases hs : s = off + 1
              · rw [if_pos hs, List.mem_cons] at hp
                rcases hp with h1 | h1
                · rw [h1]
                  simp only [List.length_cons]
                  simp only [] at hhead
                  omega
                · have := ih (off + 1) p (by rw [hrec]; exact List.mem_cons_of_mem _ h1)
                  simp only [List.length_cons]
                  omega
              · rw [if_neg hs, List.mem_cons] at hp
                rcases hp with h1 | h1
                · rw [h1]
                  simp only [List.length_cons]
                  omega
                · have := ih (off + 1) p (by rw [hrec]; exact h1)
                  simp only [List.length_cons]
                  omega

theorem someRuns_nil_cells : ∀ (l : List (Option Value)) (off : Nat),
    someRuns l off = [] → ∀ i, cellAt l i = none := by
  intro l
  induction l with
  | nil => intro off _ i; exact cellAt_of_ge _ _ (by simp)
  | cons x rest ih =>
      intro off h i
      cases x with
      | none =>
          rw [someRuns_none] at h
          match i with
          | 0 => exact cellAt_cons_zero _ _
          | j + 1 =>
              rw [cellAt_cons_succ]
              exact ih (off + 1) h j
      | some v => exact absurd h (someRuns_ne_nil v rest off)

theorem countCover_someRuns : ∀ (l : List (Option Value)) (off a : Nat),
    countCover a (someRuns l off) =
      if off ≤ a ∧ a - off < l.length ∧ (cellAt l (a - off)).isSome = true
      then 1 else 0 := by
  intro l
  induction l with
  | nil =>
      intro off a
      rw [someRuns_nil, countCover_nil, if_neg (by simp)]
  | cons x rest ih =>
      intro off a
      cases x with
      | none =>
          rw [someRuns_none, ih (off + 1) a]
          by_cases h : a = off
          · subst h
            rw [if_neg (by omega), if_neg (by
              intro hc
              have := hc.2.2
              rw [show a - a = 0 by omega, cellAt_cons_zero] at this
              simp at this)]
          · exact (cond_shift (fun o => o.isSome = true) none rest off a h).symm
      | some v =>
          by_cases h : a = off
          · subst h
            have hval : (if a ≤ a ∧ a - a < (some v :: rest).length ∧
                (cellAt (some v :: rest) (a - a)).isSome = true then 1 else 0) = 1 := by
              rw [if_pos ⟨Nat.le_refl a, by simp, by
                rw [show a - a = 0 by omega, cellAt_cons_zero]; rfl⟩]
            rw [hval]
            cases hrec : someRuns rest (a + 1) with
            | nil =>
                rw [someRuns_some_nil v rest a hrec, countCover_cons,
                  if_pos ⟨Nat.le_refl a, by omega⟩, countCover_nil]
            | cons q rs =>
                obtain ⟨s, e⟩ := q
                have hhead := someRuns_bounds rest (a + 1) (s, e)
                  (by rw [hrec]; exact List.mem_cons_self _ _)
                simp only [] at hhead
                have hrs0 : countCover a rs = 0 := by
                  apply countCover_zero_of_ge a (a + 1) rs
                  · intro p hp
                    exact (someRuns_bounds rest (a + 1) p
                      (by rw [hrec]; exact List.mem_cons_of_mem _ hp)).1
                  · omega
                rw [someRuns_some_cons v rest a s e rs hrec]
                by_cases hs : s = a + 1
                · rw [if_pos hs, countCover_cons, if_pos ⟨Nat.le_refl a, by omega⟩, hrs0]
                · rw [if_neg hs, countCover_cons, if_pos ⟨Nat.le_refl a, by omega⟩,
                    countCover_cons, if_neg (by omega), hrs0]
          · rw [cond_shift (fun o => o.isSome = true) (some v) rest off a h, ← ih (off + 1) a]
            cases hrec : someRuns rest (off + 1) with
            | nil =>
                rw [someRuns_some_nil v rest off hrec, countCover_cons,
                  if_neg (by omega), countCover_nil]
            | cons q rs =>
                obtain ⟨s, e⟩ := q
                rw [someRuns_some_cons v rest off s e rs hrec]
                by_cases hs : s = off + 1
                · rw [if_pos hs, countCover_cons, countCover_cons]
                  have heq : (if (off, e).1 ≤ a ∧ a < (off, e).2 then 1 else 0) =
                      (if (s, e).1 ≤ a ∧ a < (s, e).2 then (1 : Nat) else 0) := by
                    simp only []
                    by_cases hcov : s ≤ a ∧ a < e
                    · rw [if_pos ⟨by omega, hcov.2⟩, if_pos hcov]
                    · rw [if_neg (by omega), if_neg hcov]
                  rw [heq]
                · rw [if_neg hs, countCover_cons, if_neg (by omega), Nat.zero_add]

theorem noneRuns_nil (off : Nat) : noneRuns [] off = [] := rfl

theorem noneRuns_some (v : Value) (rest : List (Option Value)) (off : Nat) :
    noneRuns (some v :: rest) off = noneRuns rest (off + 1) := rfl

theorem noneRuns_none_nil (rest : List (Option Value)) (off : Nat)
    (h : noneRuns rest (off + 1) = []) :
    noneRuns (none :: rest) off = [(off, off + 1)] := by
  rw [noneRuns, h]

theorem noneRuns_none_cons (rest : List (Option Value)) (off s e : Nat)
    (rs : List (Nat × Nat)) (h : noneRuns rest (off + 1) = (s, e) :: rs) :
    noneRuns (none :: rest) off =
      if s = off + 1 then (off, e) :: rs else (off, off + 1) :: (s, e) :: rs := by
  rw [noneRuns, h]

theorem noneRuns_ne_nil (rest : List (Option Value)) (off : Nat) :
    noneRuns (none :: rest) off ≠ [] := by
  cases h : noneRuns rest (off + 1) with
  | nil => rw [noneRuns_none_nil rest off h]; simp
  | cons p rs =>
      obtain ⟨s, e⟩ := p
      rw [noneRuns_none_cons rest off s e rs h]
      by_cases hs : s = off + 1 <;> simp [hs]

theorem noneRuns_bounds : ∀ (l : List (Option Value)) (off : Nat),
    ∀ p ∈ noneRuns l off, off ≤ p.1 ∧ p.1 < p.2 ∧ p.2 ≤ off + l.length := by
  intro l
  induction l with
  | nil =>
      intro off p hp
      rw [noneRuns_nil] at hp
      exact absurd hp (List.not_mem_nil p)
  | cons x rest ih =>
      intro off p hp
      cases x with
      | some v =>
          rw [noneRuns_some] at hp
          have := ih (off + 1) p hp
          simp only [List.length_cons]
          omega
      | none =>
          cases hrec : noneRuns rest (off + 1) with
          | nil =>
              rw [noneRuns_none_nil rest off hrec, List.mem_singleton] at hp
              rw [hp]
              simp only [List.length_cons]
              omega
          | cons q rs =>
              obtain ⟨s, e⟩ := q
              rw [noneRuns_none_cons rest off s e rs hrec] at hp
              have hhead := ih (off + 1) (s, e) (by rw [hrec]; exact List.mem_cons_self _ _)
              by_cases hs : s = off + 1
              · rw [if_pos hs, List.mem_cons] at hp
                rcases hp with h1 | h1
                · rw [h1]
                  simp only [List.length_cons]
                  simp only [] at hhead
                  omega
                · have := ih (off + 1) p (by rw [hrec]; exact List.mem_cons_of_mem _ h1)
                  simp only [List.length_cons]
                  omega
              · rw [if_neg hs, List.mem_cons] at hp
                rcases hp with h1 | h1
                · rw [h1]
                  simp only [List.length_cons]
                  omega
                · have := ih (off + 1) p (by rw [hrec]; exact h1)
                  simp only [List.length_cons]
                  omega

theorem noneRuns_nil_cells : ∀ (l : List (Option Value)) (off : Nat),
    noneRuns l off = [] → ∀ i, i < l.length → cellAt l i ≠ none := by
  intro l
  induction l with
  | nil => intro off _ i hi; simp at hi
  | cons x rest ih =>
      intro off h i hi
      cases x with
      | some v =>
          rw [noneRuns_some] at h
          match i with
          | 0 =>
              rw [cellAt_cons_zero]
              simp
          | j + 1 =>
              rw [cellAt_cons_succ]
              exact ih (off + 1) h j (by simp at hi; omega)
      | none => exact absurd h (noneRuns_ne_nil rest off)

theorem countCover_noneRuns : ∀ (l : List (Option Value)) (off a : Nat),
    countCover a (noneRuns l off) =
      if off ≤ a ∧ a - off < l.length ∧ cellAt l (a - off) = none
      then 1 else 0 := by
  intro l
  induction l with
  | nil =>
      intro off a
      rw [noneRuns_nil, countCover_nil, if_neg (by simp)]
  | cons x rest ih =>
      intro off a
      cases x with
      | some v =>
          rw [noneRuns_some, ih (off + 1) a]
          by_cases h : a = off
          · subst h
            rw [if_neg (by omega), if_neg (by
              intro hc
              have := hc.2.2
              rw [show a - a = 0 by omega, cellAt_cons_zero] at this
              simp at this)]
          · exact (cond_shift (fun o => o = none) (some v) rest off a h).symm
      | none =>
          by_cases h : a = off
          · subst h
            have hval : (if a ≤ a ∧ a - a < (none :: rest).length ∧
                cellAt (none :: rest) (a - a) = none then 1 else 0) = 1 := by
              rw [if_pos ⟨Nat.le_refl a, by simp, by
                rw [show a - a = 0 by omega, cellAt_cons_zero]⟩]
            rw [hval]
            cases hrec : noneRuns rest (a + 1) with
            | nil =>
                rw [noneRuns_none_nil rest a hrec, countCover_cons,
                  if_pos ⟨Nat.le_refl a, by omega⟩, countCover_nil]
            | cons q rs =>
                obtain ⟨s, e⟩ := q
                have hhead := noneRuns_bounds rest (a + 1) (s, e)
                  (by rw [hrec]; exact List.mem_cons_self _ _)
                simp only [] at hhead
                have hrs0 : countCover a rs = 0 := by
                  apply countCover_zero_of_ge a (a + 1) rs
                  · intro p hp
                    exact (noneRuns_bounds rest (a + 1) p
                      (by rw [hrec]; exact List.mem_cons_of_mem _ hp)).1
                  · omega
                rw [noneRuns_none_cons rest a s e rs hrec]
                by_cases hs : s = a + 1
                · rw [if_pos hs, countCover_cons, if_pos ⟨Nat.le_refl a, by omega⟩, hrs0]
                · rw [if_neg hs, countCover_cons, if_pos ⟨Nat.le_refl a, by omega⟩,
                    countCover_cons, if_neg (by omega), hrs0]
          · rw [cond_shift (fun o => o = none) none rest off a h, ← ih (off + 1) a]
            cases hrec : noneRuns rest (off + 1) with
            | nil =>
                rw [noneRuns_none_nil rest off hrec, countCover_cons,
                  if_neg (by omega), countCover_nil]
            | cons q rs =>
                obtain ⟨s, e⟩ := q
                rw [noneRuns_none_cons rest off s e rs hrec]
                by_cases hs : s = off + 1
                · rw [if_pos hs, countCover_cons, countCover_cons]
                  have heq : (if (off, e).1 ≤ a ∧ a < (off, e).2 then 1 else 0) =
                      (if (s, e).1 ≤ a ∧ a < (s, e).2 then (1 : Nat) else 0) := by
                    simp only []
                    by_cases hcov : s ≤ a ∧ a < e
                    · rw [if_pos ⟨by omega, hcov.2⟩, if_pos hcov]
                    · rw [if_neg (by omega), if_neg hcov]
                  rw [heq]
                · rw [if_neg hs, countCover_cons, if_neg (by omega), Nat.zero_add]

/-- C3: over every bounded window `start < endex` of a valid Memory, the spans
of `intervals(start, endex)` and `gaps(start, endex)` tile `[start, endex)`
exactly: every address of the window is covered by exactly one span of the two
lists together, and every span lies inside the window and is nonempty. -/
theorem claim_C3 (m : Memory) (s e : Nat) (_hwf : m.wf) (hse : s < e) :
    (∀ a, s ≤ a → a < e →
      countCover a (m.intervals s e ++ m.gaps s e) = 1) ∧
    (∀ p ∈ m.intervals s e ++ m.gaps s e, s ≤ p.1 ∧ p.1 < p.2 ∧ p.2 ≤ e) := by
  constructor
  · intro a ha1 ha2
    rw [countCover, List.countP_append, ← countCover, ← countCover,
      Memory.intervals, Memory.gaps, countCover_someRuns, countCover_noneRuns,
      region_length]
    have hidx : a - s < e - s := by omega
    cases hcell : cellAt (region m.values s e) (a - s) with
    | none =>
        rw [if_neg (by intro hc; simp at hc), if_pos ⟨ha1, hidx, rfl⟩]
    | some v =>
        rw [if_pos ⟨ha1, hidx, rfl⟩, if_neg (by intro hc; simp at hc)]
  · intro p hp
    rcases List.mem_append.mp hp with h1 | h1
    · have := someRuns_bounds (region m.values s e) s p h1
      rw [region_length] at this
      omega
    · have := noneRuns_bounds (region m.values s e) s p h1
      rw [region_length] at this
      omega

/-- Witness for C3 at a concrete memory, window and address. -/
theorem claim_C3_witness :
    Memory.wf (Memory.from_blocks [(1, [65, 66]), (5, [120])]) ∧ (0 : Nat) < 7 ∧
    countCover 3 ((Memory.from_blocks [(1, [65, 66]), (5, [120])]).intervals 0 7 ++
      (Memory.from_blocks [(1, [65, 66]), (5, [120])]).gaps 0 7) = 1 := by
  refine ⟨by decide, by decide, ?_⟩
  exact (claim_C3 (Memory.from_blocks [(1, [65, 66]), (5, [120])]) 0 7 (by decide)
    (by decide)).1 3 (by decide) (by decide)

theorem extract_start (m : Memory) (s e : Nat) : (m.extract s e).start = s := rfl

theorem extract_endex (m : Memory) (s e : Nat) : (m.extract s e).endex = max s e := rfl

theorem extract_values_cellAt (m : Memory) (s e a : Nat) :
    cellAt (m.extract s e).values a = if s ≤ a ∧ a < e then cellAt m.values a else none := by
  have hOK : blocksOKb (m.extract s e).blocks = true := values_to_blocks_OK _ s
  rw [show (m.extract s e).values = blocks_to_values (m.extract s e).blocks from rfl,
    blocks_to_values_cellAt _ hOK a]
  rw [show (m.extract s e).blocks = values_to_blocks (region m.values s e) s from rfl]
  by_cases ha : s ≤ a
  · have h1 : a = s + (a - s) := by omega
    rw [h1, blockPeek_values_to_blocks, region_cellAt]
    by_cases h2 : a - s < e - s
    · rw [if_pos h2, if_pos (by omega)]
    · rw [if_neg h2, if_neg (by omega)]
  · rw [if_neg (by omega)]
    apply blockPeek_before_all
    intro b hb
    have := values_to_blocks_start_ge (region m.values s e) s b hb
    omega

theorem peek_writeMem_clear (m sub : Memory) (addr a : Nat) :
    (m.writeMem addr sub true).peek a =
      if addr + sub.start ≤ a ∧ a < addr + sub.start + (sub.endex - sub.start)
      then cellAt sub.values (sub.start + (a - (addr + sub.start)))
      else cellAt m.values a := by
  rw [Memory.writeMem, if_pos rfl, mkMem_peek, setRange_cellAt, region_length]
  by_cases h : addr + sub.start ≤ a ∧ a < addr + sub.start + (sub.endex - sub.start)
  · rw [if_pos h, if_pos h, region_cellAt, if_pos (by omega)]
  · rw [if_neg h, if_neg h]

theorem peek_writeMem_noclear (m sub : Memory) (addr a : Nat) :
    (m.writeMem addr sub false).peek a =
      if addr + sub.start ≤ a ∧ a < addr + sub.start + (sub.endex - sub.start)
      then (cellAt sub.values (sub.start + (a - (addr + sub.start))) <|> cellAt m.values a)
      else cellAt m.values a := by
  have hlen : (List.zipWith (fun sv o => sv <|> o) (region sub.values sub.start sub.endex)
      (region m.values (addr + sub.start)
        (addr + sub.start + (sub.endex - sub.start)))).length = sub.endex - sub.start := by
    rw [List.length_zipWith, region_length, region_length]
    omega
  rw [Memory.writeMem, if_neg (by simp), mkMem_peek, setRange_cellAt, hlen]
  by_cases h : addr + sub.start ≤ a ∧ a < addr + sub.start + (sub.endex - sub.start)
  · rw [if_pos h, if_pos h]
    have h1 : a - (addr + sub.start) < (region sub.values sub.start sub.endex).length := by
      rw [region_length]; omega
    have h2 : a - (addr + sub.start) < (region m.values (addr + sub.start)
        (addr + sub.start + (sub.endex - sub.start))).length := by
      rw [region_length]; omega
    rw [cellAt_eq_getElem, zipWith_getElem_some _ _ _ _ h1 h2]
    rw [← cellAt_eq_getElem_of_lt _ _ h1, ← cellAt_eq_getElem_of_lt _ _ h2,
      region_cellAt, region_cellAt, if_pos (by omega), if_pos (by omega)]
    have h3 : addr + sub.start + (a - (addr + sub.start)) = a := by omega
    rw [h3]
    rfl
  · rw [if_neg h, if_neg h]

theorem peek_foldl_clear : ∀ (gs : List (Nat × Nat)) (m : Memory),
    blocksOKb m.blocks = true → ∀ a,
    ((gs.foldl (fun mm p => mm.clear p.1 p.2) m).peek a) =
      if ∃ p ∈ gs, p.1 ≤ a ∧ a < p.2 then none else m.peek a := by
  intro gs
  induction gs with
  | nil =>
      intro m _ a
      rw [List.foldl_nil, if_neg (by simp)]
  | cons p ps ih =>
      intro m hOK a
      rw [List.foldl_cons, ih (m.clear p.1 p.2) (mkMem_blocksOK _) a]
      have hpc := peek_clear m p.1 p.2 a
      by_cases hex : ∃ q ∈ ps, q.1 ≤ a ∧ a < q.2
      · rw [if_pos hex, if_pos (by
          obtain ⟨q, hq, hc⟩ := hex
          exact ⟨q, List.mem_cons_of_mem _ hq, hc⟩)]
      · rw [if_neg hex, hpc]
        by_cases hp : p.1 ≤ a ∧ a < p.2
        · rw [if_pos hp, if_pos ⟨p, List.mem_cons_self _ _, hp⟩]
        · rw [if_neg hp, if_neg (by
            intro hc
            obtain ⟨q, hq, hcc⟩ := hc
            rcases List.mem_cons.mp hq with h1 | h1
            · exact hp (h1 ▸ hcc)
            · exact hex ⟨q, h1, hcc⟩),
            ← peek_eq_cellAt_values m hOK a]

theorem b2vGo_length : ∀ (bl : List Block) (acc : Nat), blocksOKb bl = true →
    (∀ b ∈ bl, acc ≤ b.1) → ∀ bLast, bl.getLast? = some bLast →
    (b2vGo bl acc).length + acc = bLast.1 + bLast.2.length := by
  intro bl
  induction bl with
  | nil => intro acc _ _ bLast h; simp at h
  | cons b0 rest ih =>
      intro acc hOK hge bLast hlast
      obtain ⟨s, d⟩ := b0
      have hacc : acc ≤ s := by
        have := hge (s, d) (List.mem_cons_self _ _)
        simpa using this
      have hmax : max acc s = s := by omega
      rw [b2vGo, hmax]
      rw [List.length_append, List.length_append, List.length_replicate, List.length_map]
      match rest with
      | [] =>
          simp at hlast
          rw [b2vGo]
          rw [← hlast]
          simp
          omega
      | r0 :: rest2 =>
          rw [List.getLast?_cons_cons] at hlast
          have hstep : ∀ b ∈ r0 :: rest2, s + d.length ≤ b.1 := by
            intro b hb
            have := blocksOKb_all_lt hOK b hb
            simp only [] at this
            omega
          have := ih (s + d.length) (blocksOKb_tail hOK) hstep bLast hlast
          omega

theorem values_length (m : Memory) (hOK : blocksOKb m.blocks = true) :
    m.values.length = m.contentEndex := by
  rw [Memory.values, blocks_to_values, Memory.contentEndex]
  match hbl : m.blocks with
  | [] => rw [b2vGo]; rfl
  | b0 :: rest =>
      have hlast : (b0 :: rest).getLast? = some ((b0 :: rest).getLast (by simp)) :=
        List.getLast?_eq_getLast _ _
      rw [hbl] at hOK
      have := b2vGo_length (b0 :: rest) 0 hOK (fun b _ => Nat.zero_le _) _ hlast
      simp only [hlast]
      omega

theorem cellAt_dropLast (vs : List (Option Value)) (a : Nat) :
    cellAt vs.dropLast a = if a < vs.length - 1 then cellAt vs a else none := by
  rw [List.dropLast_eq_take, cellAt_take]

theorem span_eq_of_blocks_eq (m1 m2 : Memory) (h : m1.blocks = m2.blocks)
    (h1 : m1.bstart = none) (h2 : m1.bendex = none)
    (h3 : m2.bstart = none) (h4 : m2.bendex = none) : m1.span = m2.span := by
  rw [Memory.span, Memory.span, Memory.start, Memory.start, Memory.endex, Memory.endex,
    h1, h2, h3, h4, Option.getD_none, Option.getD_none, Option.getD_none, Option.getD_none,
    Memory.contentStart, Memory.contentStart, Memory.contentEndex, Memory.contentEndex, h]

theorem max_sub_self (s e : Nat) : max s e - s = e - s := by
  rcases Nat.le_total s e with h | h
  · rw [Nat.max_eq_right h]
  · rw [Nat.max_eq_left h]
    omega

theorem foldl_clear_OK : ∀ (gs : List (Nat × Nat)) (m : Memory),
    blocksOKb m.blocks = true →
    blocksOKb ((gs.foldl (fun mm p => mm.clear p.1 p.2) m).blocks) = true := by
  intro gs
  induction gs with
  | nil => intro m h; exact h
  | cons p ps ih =>
      intro m _
      rw [List.foldl_cons]
      exact ih (m.clear p.1 p.2) (mkMem_blocksOK _)

theorem foldl_clear_bounds : ∀ (gs : List (Nat × Nat)) (m : Memory),
    m.bstart = none → m.bendex = none →
    (gs.foldl (fun mm p => mm.clear p.1 p.2) m).bstart = none ∧
    (gs.foldl (fun mm p => mm.clear p.1 p.2) m).bendex = none := by
  intro gs
  induction gs with
  | nil => intro m h1 h2; exact ⟨h1, h2⟩
  | cons p ps ih =>
      intro m _ _
      rw [List.foldl_cons]
      exact ih (m.clear p.1 p.2) rfl rfl

theorem fill_values_cellAt (m : Memory) (s e : Nat) (pat : List Value) (a : Nat) :
    cellAt (m.fill s e pat).values a =
      if s ≤ a ∧ a < e then some (pat.getD ((a - s) % pat.length) 0)
      else cellAt m.values a := by
  have hOK : blocksOKb (m.fill s e pat).blocks = true := mkMem_blocksOK _
  rw [← peek_eq_cellAt_values (m.fill s e pat) hOK a, peek_fill]

theorem fill_restore_blocks (m : Memory) (s e : Nat) (pat : List Value) (hwf : m.wf) :
    ((m.fill s e pat).fill_restore (m.fill_backup s e)).blocks = m.blocks := by
  have hOKres :
      blocksOKb ((m.fill s e pat).fill_restore (m.fill_backup s e)).blocks = true := by
    rw [Memory.fill_restore, Memory.writeMem, if_pos rfl]
    exact mkMem_blocksOK _
  apply blocksExt _ _ hOKres hwf.1
  intro a
  show ((m.fill s e pat).fill_restore (m.fill_backup s e)).peek a = m.peek a
  rw [Memory.fill_restore, Memory.fill_backup, peek_writeMem_clear, extract_start,
    extract_endex, max_sub_self]
  by_cases hin : 0 + s ≤ a ∧ a < 0 + s + (e - s)
  · rw [if_pos hin]
    have hidx : s + (a - (0 + s)) = a := by omega
    rw [hidx, extract_values_cellAt, if_pos ⟨by omega, by omega⟩,
      ← peek_eq_cellAt_values m hwf.1 a]
  · rw [if_neg hin, fill_values_cellAt, if_neg (by omega),
      ← peek_eq_cellAt_values m hwf.1 a]

theorem gaps_mem_cell (m : Memory) (s e : Nat) (p : Nat × Nat) (hp : p ∈ m.gaps s e)
    (a : Nat) (hc1 : p.1 ≤ a) (hc2 : a < p.2) : cellAt m.values a = none ∧ s ≤ a ∧ a < e := by
  have hcnt : 0 < countCover a (m.gaps s e) := by
    rw [countCover]
    exact List.countP_pos_iff.mpr ⟨p, hp, by simp [hc1, hc2]⟩
  rw [Memory.gaps, countCover_noneRuns] at hcnt
  have hcond : s ≤ a ∧ a - s < (region m.values s e).length ∧
      cellAt (region m.values s e) (a - s) = none := by
    by_contra hc
    rw [if_neg hc] at hcnt
    omega
  obtain ⟨h1, h2, h3⟩ := hcond
  rw [region_length] at h2
  rw [region_cellAt, if_pos h2] at h3
  have hidx : s + (a - s) = a := by omega
  rw [hidx] at h3
  exact ⟨h3, h1, by omega⟩

theorem gaps_cover (m : Memory) (s e a : Nat) (h1 : s ≤ a) (h2 : a < e)
    (h3 : cellAt m.values a = none) : ∃ p ∈ m.gaps s e, p.1 ≤ a ∧ a < p.2 := by
  have hcnt : countCover a (m.gaps s e) = 1 := by
    rw [Memory.gaps, countCover_noneRuns, region_length, if_pos ⟨h1, by omega, by
      rw [region_cellAt, if_pos (by omega), show s + (a - s) = a by omega]
      exact h3⟩]
  have hpos : 0 < countCover a (m.gaps s e) := by omega
  rw [countCover] at hpos
  obtain ⟨p, hp, hcov⟩ := List.countP_pos_iff.mp hpos
  simp at hcov
  exact ⟨p, hp, hcov⟩

theorem flood_restore_blocks (m : Memory) (s e : Nat) (pat : List Value) (hwf : m.wf) :
    ((m.flood s e pat).flood_restore (m.flood_backup s e)).blocks = m.blocks := by
  have hOKflood : blocksOKb (m.flood s e pat).blocks = true := mkMem_blocksOK _
  have hOKres :
      blocksOKb ((m.flood s e pat).flood_restore (m.flood_backup s e)).blocks = true := by
    rw [Memory.flood_restore]
    exact foldl_clear_OK _ _ hOKflood
  apply blocksExt _ _ hOKres hwf.1
  intro a
  show ((m.flood s e pat).flood_restore (m.flood_backup s e)).peek a = m.peek a
  rw [Memory.flood_restore, Memory.flood_backup,
    peek_foldl_clear (m.gaps s e) (m.flood s e pat) hOKflood a]
  by_cases hex : ∃ p ∈ m.gaps s e, p.1 ≤ a ∧ a < p.2
  · rw [if_pos hex]
    obtain ⟨p, hp, hc1, hc2⟩ := hex
    have := gaps_mem_cell m s e p hp a hc1 hc2
    rw [← peek_eq_cellAt_values m hwf.1 a] at this
    exact this.1.symm
  · rw [if_neg hex, peek_flood]
    rw [if_neg (by
      intro hc
      exact hex (gaps_cover m s e a hc.1 hc.2.1 hc.2.2))]
    rw [← peek_eq_cellAt_values m hwf.1 a]

theorem poke_values_cellAt (m : Memory) (x : Nat) (v : Option Value) (a : Nat) :
    cellAt (m.poke x v).values a = if a = x then v else cellAt m.values a := by
  have hOK : blocksOKb (m.poke x v).blocks = true := mkMem_blocksOK _
  rw [← peek_eq_cellAt_values (m.poke x v) hOK a, peek_poke]

theorem poke_restore_blocks (m : Memory) (x : Nat) (v : Option Value) (hwf : m.wf) :
    ((m.poke x v).poke_restore (m.poke_backup x).1 (m.poke_backup x).2).blocks =
      m.blocks := by
  have hOKres : blocksOKb ((m.poke x v).poke_restore (m.poke_backup x).1
      (m.poke_backup x).2).blocks = true := mkMem_blocksOK _
  apply blocksExt _ _ hOKres hwf.1
  intro a
  show ((m.poke x v).poke_restore (m.poke_backup x).1 (m.poke_backup x).2).peek a = m.peek a
  rw [Memory.poke_restore, Memory.poke_backup, peek_poke]
  by_cases h : a = x
  · rw [if_pos h, h]
  · rw [if_neg h, poke_values_cellAt, if_neg h, ← peek_eq_cellAt_values m hwf.1 a]

theorem popitem_restore_blocks (m : Memory) (hwf : m.wf) :
    (m.popitem.popitem_restore (m.popitem_backup).1 (m.popitem_backup).2).blocks =
      m.blocks := by
  have hOKres : blocksOKb (m.popitem.popitem_restore (m.popitem_backup).1
      (m.popitem_backup).2).blocks = true := mkMem_blocksOK _
  apply blocksExt _ _ hOKres hwf.1
  intro a
  show (m.popitem.popitem_restore (m.popitem_backup).1 (m.popitem_backup).2).peek a =
    m.peek a
  rw [Memory.popitem_restore, Memory.popitem_backup, peek_poke]
  have hlen := values_length m hwf.1
  by_cases h : a = m.contentEndex - 1
  · rw [if_pos h, h]
  · rw [if_neg h]
    have hpop : cellAt (m.popitem).values a = cellAt m.values.dropLast a :=
      values_cellAt_mkMem _ a
    rw [hpop, cellAt_dropLast, hlen]
    by_cases h2 : a < m.contentEndex - 1
    · rw [if_pos h2, ← peek_eq_cellAt_values m hwf.1 a]
    · rw [if_neg h2, peek_eq_cellAt_values m hwf.1 a, cellAt_of_ge _ _ (by omega)]

theorem clear_values_cellAt (m : Memory) (s e a : Nat) :
    cellAt (m.clear s e).values a =
      if s ≤ a ∧ a < e then none else cellAt m.values a := by
  have hOK : blocksOKb (m.clear s e).blocks = true := mkMem_blocksOK _
  rw [← peek_eq_cellAt_values (m.clear s e) hOK a, peek_clear]

theorem splice_cellAt (vs mid : List (Option Value)) (x a : Nat) :
    cellAt ((padTo vs x).take x ++ mid ++ (padTo vs x).drop x) a =
      if a < x then cellAt vs a
      else if a < x + mid.length then cellAt mid (a - x)
      else cellAt vs (a - mid.length) := by
  have hfront : ((padTo vs x).take x).length = x := by
    rw [List.length_take, padTo_length]; omega
  have hlen2 : ((padTo vs x).take x ++ mid).length = x + mid.length := by
    rw [List.length_append, hfront]
  rw [cellAt_append, hlen2]
  rcases Nat.lt_or_ge a x with h1 | h1
  · rw [if_pos (by omega), cellAt_append, hfront, if_pos h1, cellAt_take, if_pos h1,
      padTo_cellAt, if_pos h1]
  · rcases Nat.lt_or_ge a (x + mid.length) with h2 | h2
    · rw [if_pos h2, cellAt_append, hfront, if_neg (by omega), if_neg (by omega), if_pos h2]
    · rw [if_neg (by omega), cellAt_drop, padTo_cellAt, if_neg (by omega), if_neg (by omega)]
      congr 1
      omega

theorem insert_values_cellAt (m : Memory) (x : Nat) (data : List Value) (a : Nat) :
    cellAt (m.insert x data).values a =
      if a < x then cellAt m.values a
      else if a < x + data.length then data[a - x]?
      else cellAt m.values (a - data.length) := by
  rw [show m.insert x data =
      mkMem ((padTo m.values x).take x ++ data.map some ++ (padTo m.values x).drop x)
      from rfl, values_cellAt_mkMem, splice_cellAt, cellAt_map_some, List.length_map]

theorem reserve_values_cellAt (m : Memory) (x n a : Nat) :
    cellAt (m.reserve x n).values a =
      if a < x then cellAt m.values a
      else if a < x + n then none
      else cellAt m.values (a - n) := by
  rw [show m.reserve x n =
      mkMem ((padTo m.values x).take x ++ List.replicate n none ++ (padTo m.values x).drop x)
      from rfl, values_cellAt_mkMem, splice_cellAt, cellAt_replicate, List.length_replicate]

theorem delete_values_cellAt (m : Memory) (s e a : Nat) :
    cellAt (m.delete s e).values a =
      if a < s then cellAt m.values a else cellAt m.values (a + (max s e - s)) := by
  have hms : s ≤ max s e := Nat.le_max_left s e
  rw [show m.delete s e = mkMem (m.values.take s ++ m.values.drop (max s e)) from rfl,
    values_cellAt_mkMem, cellAt_append, List.length_take]
  by_cases h1 : a < min s m.values.length
  · rw [if_pos h1, cellAt_take, if_pos (by omega), if_pos (by omega)]
  · rw [if_neg h1, cellAt_drop]
    by_cases h2 : a < s
    · rw [if_pos h2, cellAt_of_ge _ _ (by omega), cellAt_of_ge _ _ (by omega)]
    · rw [if_neg h2]
      by_cases h3 : s ≤ m.values.length
      · have hmin : min s m.values.length = s := by omega
        rw [hmin]
        congr 1
        omega
      · rw [cellAt_of_ge _ _ (by omega), cellAt_of_ge _ _ (by omega)]

theorem pop_values_cellAt (m : Memory) (x a : Nat) :
    cellAt (m.pop x).values a =
      if a < x then cellAt m.values a else cellAt m.values (a + 1) := by
  rw [show m.pop x = mkMem (m.values.take x ++ m.values.drop (x + 1)) from rfl,
    values_cellAt_mkMem, cellAt_append, List.length_take]
  by_cases h1 : a < min x m.values.length
  · rw [if_pos h1, cellAt_take, if_pos (by omega), if_pos (by omega)]
  · rw [if_neg h1, cellAt_drop]
    by_cases h2 : a < x
    · rw [if_pos h2, cellAt_of_ge _ _ (by omega), cellAt_of_ge _ _ (by omega)]
    · rw [if_neg h2]
      by_cases h3 : x ≤ m.values.length
      · have hmin : min x m.values.length = x := by omega
        rw [hmin]
        congr 1
        omega
      · rw [cellAt_of_ge _ _ (by omega), cellAt_of_ge _ _ (by omega)]

theorem crop_values_cellAt (m : Memory) (s e a : Nat) :
    cellAt (m.crop s e).values a =
      if s ≤ a ∧ a < e then cellAt m.values a else none := by
  rw [show m.crop s e = mkMem (List.replicate s none ++ region m.values s e) from rfl,
    values_cellAt_mkMem, cellAt_append, List.length_replicate]
  by_cases h1 : a < s
  · rw [if_pos h1, cellAt_replicate, if_neg (by omega)]
  · rw [if_neg h1, region_cellAt]
    by_cases h2 : a - s < e - s
    · rw [if_pos h2, if_pos ⟨by omega, by omega⟩]
      congr 1
      omega
    · rw [if_neg h2, if_neg (by omega)]

theorem write_values_cellAt (m : Memory) (x : Nat) (data : List Value) (a : Nat) :
    cellAt (m.write x data).values a =
      if x ≤ a ∧ a < x + data.length then some (data.getD (a - x) 0)
      else cellAt m.values a := by
  have hOK : blocksOKb (m.write x data).blocks = true := mkMem_blocksOK _
  rw [← peek_eq_cellAt_values (m.write x data) hOK a, peek_write]

theorem append_values_cellAt (m : Memory) (v : Value) (a : Nat) :
    cellAt (m.append v).values a =
      if a = m.contentEndex then some v else cellAt m.values a := by
  rw [show m.append v = mkMem (setRange m.values m.contentEndex [some v]) from rfl,
    values_cellAt_mkMem, setRange_cellAt, List.length_singleton]
  by_cases h : a = m.contentEndex
  · rw [if_pos (by omega), if_pos h]
    have h0 : a - m.contentEndex = 0 := by omega
    rw [h0, cellAt_cons_zero]
  · rw [if_neg (by omega), if_neg h]

theorem contentEndex_nil (m : Memory) (h : m.blocks = []) : m.contentEndex = 0 := by
  rw [Memory.contentEndex, h]
  rfl

theorem cellAt_values_ge_contentEndex (m : Memory) (hOK : blocksOKb m.blocks = true)
    (a : Nat) (h : m.contentEndex ≤ a) : cellAt m.values a = none :=
  cellAt_of_ge _ _ (by rw [values_length m hOK]; omega)

theorem contentEndex_last_cell (m : Memory) (hOK : blocksOKb m.blocks = true)
    (h : m.blocks ≠ []) :
    cellAt m.values (m.contentEndex - 1) ≠ none ∧ 0 < m.contentEndex := by
  have hlast : m.blocks.getLast? = some (m.blocks.getLast h) := List.getLast?_eq_getLast _ _
  have hmem : m.blocks.getLast h ∈ m.blocks := List.getLast_mem _
  have hne : (m.blocks.getLast h).2 ≠ [] := blocksOK_all_ne m.blocks hOK _ hmem
  have hpos : 0 < (m.blocks.getLast h).2.length := List.length_pos.mpr hne
  have hce : m.contentEndex = (m.blocks.getLast h).1 + (m.blocks.getLast h).2.length := by
    rw [Memory.contentEndex, hlast]
  have hpk := blockPeek_mem_some m.blocks hOK _ hmem (m.contentEndex - 1)
      (by omega) (by omega)
  rw [Memory.values, blocks_to_values_cellAt m.blocks hOK, hpk]
  exact ⟨by simp, by omega⟩

theorem contentEndex_eq_of_cells (m : Memory) (hOK : blocksOKb m.blocks = true) (n : Nat)
    (hbelow : n = 0 ∨ cellAt m.values (n - 1) ≠ none)
    (habove : ∀ a, n ≤ a → cellAt m.values a = none) : m.contentEndex = n := by
  rcases Nat.lt_trichotomy m.contentEndex n with h | h | h
  · rcases hbelow with h0 | hcell
    · omega
    · exact absurd (cellAt_values_ge_contentEndex m hOK (n - 1) (by omega)) hcell
  · exact h
  · have hne : m.blocks ≠ [] := by
      intro hnil
      rw [contentEndex_nil m hnil] at h
      omega
    have hlc := contentEndex_last_cell m hOK hne
    exact absurd (habove (m.contentEndex - 1) (by omega)) hlc.1

theorem contentStart_le_contentEndex (m : Memory) (hOK : blocksOKb m.blocks = true) :
    m.contentStart ≤ m.contentEndex := by
  match hbl : m.blocks with
  | [] =>
      have h1 : m.contentStart = 0 := by rw [Memory.contentStart, hbl]; rfl
      have h2 : m.contentEndex = 0 := by rw [Memory.contentEndex, hbl]; rfl
      omega
  | b0 :: rest =>
      rw [hbl] at hOK
      have h1 : m.contentStart = b0.1 := by rw [Memory.contentStart, hbl]; rfl
      have hlast : (b0 :: rest).getLast? = some ((b0 :: rest).getLast (by simp)) :=
        List.getLast?_eq_getLast _ _
      have hmem : (b0 :: rest).getLast (by simp) ∈ b0 :: rest := List.getLast_mem _
      have h2 : m.contentEndex =
          ((b0 :: rest).getLast (by simp)).1 + ((b0 :: rest).getLast (by simp)).2.length := by
        rw [Memory.contentEndex, hbl, hlast]
      have h3 := blocksOK_head_le rest b0 hOK _ hmem
      omega

theorem cellAt_lt_contentStart (m : Memory) (hOK : blocksOKb m.blocks = true) (a : Nat)
    (h : a < m.contentStart) : cellAt m.values a = none := by
  rw [Memory.values, blocks_to_values_cellAt m.blocks hOK]
  apply blockPeek_before_all
  intro b hb
  match hbl : m.blocks with
  | [] =>
      rw [hbl] at hb
      exact absurd hb (List.not_mem_nil b)
  | b0 :: rest =>
      have h1 : m.contentStart = b0.1 := by rw [Memory.contentStart, hbl]; rfl
      rw [hbl] at hb hOK
      have := blocksOK_head_le rest b0 hOK b hb
      omega

theorem writeMem_bounds (m sub : Memory) (addr : Nat) (c : Bool) :
    (m.writeMem addr sub c).bstart = none ∧ (m.writeMem addr sub c).bendex = none := by
  cases c with
  | true =>
      rw [Memory.writeMem, if_pos rfl]
      exact ⟨rfl, rfl⟩
  | false =>
      rw [Memory.writeMem, if_neg (by simp)]
      exact ⟨rfl, rfl⟩

theorem restore_overwrite_blocks (orig mid : Memory) (s e : Nat)
    (hOKo : blocksOKb orig.blocks = true)
    (hmid : ∀ a, ¬(s ≤ a ∧ a < e) → cellAt mid.values a = cellAt orig.values a) :
    (mid.writeMem 0 (orig.extract s e) true).blocks = orig.blocks := by
  apply blocksExt _ _ (by rw [Memory.writeMem, if_pos rfl]; exact mkMem_blocksOK _) hOKo
  intro a
  show (mid.writeMem 0 (orig.extract s e) true).peek a = orig.peek a
  rw [peek_writeMem_clear, extract_start, extract_endex, max_sub_self]
  by_cases hin : 0 + s ≤ a ∧ a < 0 + s + (e - s)
  · rw [if_pos hin]
    have hidx : s + (a - (0 + s)) = a := by omega
    rw [hidx, extract_values_cellAt, if_pos ⟨by omega, by omega⟩,
      ← peek_eq_cellAt_values orig hOKo a]
  · rw [if_neg hin, hmid a (by omega), ← peek_eq_cellAt_values orig hOKo a]

theorem splice_delete_cellAt (m : Memory) (mid : List (Option Value)) (x a : Nat) :
    cellAt ((mkMem ((padTo m.values x).take x ++ mid ++ (padTo m.values x).drop x)).delete x
      (x + mid.length)).values a = cellAt m.values a := by
  rw [delete_values_cellAt]
  have hmax : max x (x + mid.length) - x = mid.length := by
    rw [max_sub_self]; omega
  rw [hmax]
  by_cases h1 : a < x
  · rw [if_pos h1, values_cellAt_mkMem, splice_cellAt, if_pos h1]
  · rw [if_neg h1, values_cellAt_mkMem, splice_cellAt, if_neg (by omega), if_neg (by omega)]
    congr 1
    omega

theorem write_restore_blocks (m : Memory) (x : Nat) (data : List Value) (hwf : m.wf) :
    ((m.write x data).write_restore (m.write_backup x data)).blocks = m.blocks := by
  rw [Memory.write_restore, Memory.write_backup, List.foldl_cons, List.foldl_nil]
  apply restore_overwrite_blocks m (m.write x data) x (x + data.length) hwf.1
  intro a ha
  rw [write_values_cellAt, if_neg (by omega)]

theorem clear_restore_blocks (m : Memory) (s e : Nat) (hwf : m.wf) :
    ((m.clear s e).clear_restore (m.clear_backup s e)).blocks = m.blocks := by
  rw [Memory.clear_restore, Memory.clear_backup]
  apply restore_overwrite_blocks m (m.clear s e) s e hwf.1
  intro a ha
  rw [clear_values_cellAt, if_neg ha]

theorem delete_restore_core (m : Memory) (hwf : m.wf) (s e : Nat) :
    (((m.delete s e).reserve s (max s e - s)).writeMem 0 (m.extract s e) false).blocks
      = m.blocks := by
  have hOKres : blocksOKb ((((m.delete s e).reserve s (max s e - s)).writeMem 0
      (m.extract s e) false)).blocks = true := by
    rw [Memory.writeMem, if_neg (by simp)]
    exact mkMem_blocksOK _
  apply blocksExt _ _ hOKres hwf.1
  intro a
  show (((m.delete s e).reserve s (max s e - s)).writeMem 0 (m.extract s e) false).peek a
    = m.peek a
  rw [peek_writeMem_noclear, extract_start, extract_endex, max_sub_self]
  by_cases hin : 0 + s ≤ a ∧ a < 0 + s + (e - s)
  · rw [if_pos hin]
    have hidx : s + (a - (0 + s)) = a := by omega
    rw [hidx, extract_values_cellAt, if_pos ⟨by omega, by omega⟩]
    cases hv : cellAt m.values a with
    | none =>
        show cellAt ((m.delete s e).reserve s (e - s)).values a = m.peek a
        rw [reserve_values_cellAt, if_neg (by omega), if_pos (by omega),
          peek_eq_cellAt_values m hwf.1 a, hv]
    | some v =>
        show some v = m.peek a
        rw [peek_eq_cellAt_values m hwf.1 a, hv]
  · rw [if_neg hin, reserve_values_cellAt]
    by_cases h1 : a < s
    · rw [if_pos h1, delete_values_cellAt, if_pos h1, peek_eq_cellAt_values m hwf.1 a]
    · rw [if_neg h1, if_neg (by omega), delete_values_cellAt, max_sub_self,
        if_neg (by omega), peek_eq_cellAt_values m hwf.1 a]
      congr 1
      omega

theorem delete_restore_blocks (m : Memory) (s e : Nat) (hwf : m.wf) :
    ((m.delete s e).delete_restore (m.delete_backup s e)).blocks = m.blocks := by
  rw [Memory.delete_restore, Memory.delete_backup, extract_start, extract_endex]
  exact delete_restore_core m hwf s e

theorem remove_restore_core (m : Memory) (a0 P : Nat) (hwf : m.wf) :
    ((m.delete a0 (a0 + P)).remove_restore (m.extract a0 (a0 + P))).blocks = m.blocks := by
  rw [Memory.remove_restore, extract_start, extract_endex]
  exact delete_restore_core m hwf a0 (a0 + P)

theorem insert_restore_blocks (m : Memory) (x : Nat) (data : List Value) (hwf : m.wf) :
    ((m.insert x data).insert_restore (m.insert_backup x data).1
      (m.insert_backup x data).2).blocks = m.blocks := by
  have hb1 : (m.insert_backup x data).1 = x := rfl
  have hb2 : (m.insert_backup x data).2 = m.extract x (x + data.length) := rfl
  rw [hb1, hb2, Memory.insert_restore]
  have hL : (m.extract x (x + data.length)).endex - (m.extract x (x + data.length)).start
      = data.length := by
    rw [extract_start, extract_endex, max_sub_self]
    omega
  rw [hL]
  apply restore_overwrite_blocks m ((m.insert x data).delete x (x + data.length)) x
    (x + data.length) hwf.1
  intro a _
  have hsp := splice_delete_cellAt m (data.map some) x a
  rw [List.length_map] at hsp
  rw [show m.insert x data = mkMem ((padTo m.values x).take x ++ data.map some ++
    (padTo m.values x).drop x) from rfl]
  exact hsp

theorem reserve_restore_blocks (m : Memory) (x n : Nat) (hwf : m.wf) :
    ((m.reserve x n).reserve_restore (m.reserve_backup x n).1
      (m.reserve_backup x n).2).blocks = m.blocks := by
  have hb1 : (m.reserve_backup x n).1 = x := rfl
  have hb2 : (m.reserve_backup x n).2 = m.extract x (x + n) := rfl
  rw [hb1, hb2, Memory.reserve_restore]
  have hL : (m.extract x (x + n)).endex - (m.extract x (x + n)).start = n := by
    rw [extract_start, extract_endex, max_sub_self]
    omega
  rw [hL]
  apply restore_overwrite_blocks m ((m.reserve x n).delete x (x + n)) x (x + n) hwf.1
  intro a _
  have hsp := splice_delete_cellAt m (List.replicate n none) x a
  rw [List.length_replicate] at hsp
  rw [show m.reserve x n = mkMem ((padTo m.values x).take x ++ List.replicate n none ++
    (padTo m.values x).drop x) from rfl]
  exact hsp

theorem pop_restore_blocks (m : Memory) (x : Nat) (hwf : m.wf) :
    ((m.pop x).pop_restore (m.pop_backup x).1 (m.pop_backup x).2).blocks = m.blocks := by
  have hb1 : (m.pop_backup x).1 = x := rfl
  have hb2 : (m.pop_backup x).2 = m.peek x := rfl
  rw [hb1, hb2]
  cases hv : m.peek x with
  | none =>
      show ((m.pop x).reserve x 1).blocks = m.blocks
      apply blocksExt _ _ (mkMem_blocksOK _) hwf.1
      intro a
      show ((m.pop x).reserve x 1).peek a = m.peek a
      have hOKr : blocksOKb ((m.pop x).reserve x 1).blocks = true := mkMem_blocksOK _
      rw [peek_eq_cellAt_values _ hOKr a, reserve_values_cellAt,
        peek_eq_cellAt_values m hwf.1 a]
      by_cases h1 : a < x
      · rw [if_pos h1, pop_values_cellAt, if_pos h1]
      · by_cases h2 : a < x + 1
        · rw [if_neg h1, if_pos h2]
          have hax : a = x := by omega
          have hcx : cellAt m.values x = none := by
            rw [← peek_eq_cellAt_values m hwf.1 x]
            exact hv
          rw [hax, hcx]
        · rw [if_neg h1, if_neg h2, pop_values_cellAt, if_neg (by omega)]
          congr 1
          omega
  | some v =>
      show ((m.pop x).insert x [v]).blocks = m.blocks
      apply blocksExt _ _ (mkMem_blocksOK _) hwf.1
      intro a
      show ((m.pop x).insert x [v]).peek a = m.peek a
      have hOKi : blocksOKb ((m.pop x).insert x [v]).blocks = true := mkMem_blocksOK _
      rw [peek_eq_cellAt_values _ hOKi a, insert_values_cellAt,
        List.length_singleton, peek_eq_cellAt_values m hwf.1 a]
      by_cases h1 : a < x
      · rw [if_pos h1, pop_values_cellAt, if_pos h1]
      · by_cases h2 : a < x + 1
        · rw [if_neg h1, if_pos h2]
          have hax : a = x := by omega
          have hcx : cellAt m.values x = some v := by
            rw [← peek_eq_cellAt_values m hwf.1 x]
            exact hv
          rw [hax, Nat.sub_self, hcx]
          rfl
        · rw [if_neg h1, if_neg h2, pop_values_cellAt, if_neg (by omega)]
          congr 1
          omega

theorem append_restore_blocks (m : Memory) (v : Value) (hwf : m.wf) :
    ((m.append v).append_restore).blocks = m.blocks := by
  have hCE : (m.append v).contentEndex = m.contentEndex + 1 := by
    apply contentEndex_eq_of_cells (m.append v) (mkMem_blocksOK _)
    · right
      have hidx : m.contentEndex + 1 - 1 = m.contentEndex := by omega
      rw [hidx, append_values_cellAt, if_pos rfl]
      simp
    · intro a ha
      rw [append_values_cellAt, if_neg (by omega)]
      exact cellAt_values_ge_contentEndex m hwf.1 a (by omega)
  rw [Memory.append_restore, hCE]
  have hx : m.contentEndex + 1 - 1 = m.contentEndex := by omega
  rw [hx]
  apply blocksExt _ _ (mkMem_blocksOK _) hwf.1
  intro a
  show ((m.append v).pop m.contentEndex).peek a = m.peek a
  have hOKp : blocksOKb ((m.append v).pop m.contentEndex).blocks = true := mkMem_blocksOK _
  rw [peek_eq_cellAt_values _ hOKp a, pop_values_cellAt,
    peek_eq_cellAt_values m hwf.1 a]
  by_cases h1 : a < m.contentEndex
  · rw [if_pos h1, append_values_cellAt, if_neg (by omega)]
  · rw [if_neg h1, append_values_cellAt, if_neg (by omega),
      cellAt_values_ge_contentEndex m hwf.1 (a + 1) (by omega),
      cellAt_values_ge_contentEndex m hwf.1 a (by omega)]

theorem crop_restore_blocks (m : Memory) (s e : Nat) (hwf : m.wf) :
    ((m.crop s e).crop_restore (m.crop_backup s e)).blocks = m.blocks := by
  have hb1 : (m.crop_backup s e).1 = m.extract m.contentStart s := rfl
  have hb2 : (m.crop_backup s e).2 = m.extract e m.contentEndex := rfl
  rw [Memory.crop_restore, hb1, hb2]
  apply blocksExt _ _ (by rw [Memory.writeMem, if_pos rfl]; exact mkMem_blocksOK _) hwf.1
  intro a
  show (((m.crop s e).writeMem 0 (m.extract m.contentStart s) true).writeMem 0
    (m.extract e m.contentEndex) true).peek a = m.peek a
  rw [peek_writeMem_clear, extract_start, extract_endex, max_sub_self,
    peek_eq_cellAt_values m hwf.1 a]
  by_cases hin2 : 0 + e ≤ a ∧ a < 0 + e + (m.contentEndex - e)
  · rw [if_pos hin2]
    have hidx : e + (a - (0 + e)) = a := by omega
    rw [hidx, extract_values_cellAt]
    by_cases hce : a < m.contentEndex
    · rw [if_pos ⟨by omega, hce⟩]
    · rw [if_neg (by omega), cellAt_values_ge_contentEndex m hwf.1 a (by omega)]
  · rw [if_neg hin2]
    have hOK1 : blocksOKb ((m.crop s e).writeMem 0
        (m.extract m.contentStart s) true).blocks = true := by
      rw [Memory.writeMem, if_pos rfl]
      exact mkMem_blocksOK _
    rw [← peek_eq_cellAt_values _ hOK1 a]
    rw [peek_writeMem_clear, extract_start, extract_endex, max_sub_self]
    by_cases hin1 : 0 + m.contentStart ≤ a ∧ a < 0 + m.contentStart + (s - m.contentStart)
    · rw [if_pos hin1]
      have hidx : m.contentStart + (a - (0 + m.contentStart)) = a := by omega
      rw [hidx, extract_values_cellAt, if_pos ⟨by omega, by omega⟩]
    · rw [if_neg hin1, crop_values_cellAt]
      by_cases hwin : s ≤ a ∧ a < e
      · rw [if_pos hwin]
      · rw [if_neg hwin]
        by_cases hlt : a < m.contentStart
        · rw [cellAt_lt_contentStart m hwf.1 a hlt]
        · rw [cellAt_values_ge_contentEndex m hwf.1 a (by omega)]

theorem shift_restore_blocks (m : Memory) (off : Nat) :
    ((m.shift off).shift_restore off (m.shift_backup off).2).blocks = m.blocks := by
  show ((m.shift off).blocks.map fun b => (b.1 - off, b.2)) = m.blocks
  rw [show (m.shift off).blocks = m.blocks.map fun b => (b.1 + off, b.2) from rfl,
    List.map_map]
  have h1 : ∀ b ∈ m.blocks,
      ((fun b => ((b : Block).1 - off, b.2)) ∘ fun b => ((b : Block).1 + off, b.2)) b
        = id b := by
    intro b _
    obtain ⟨s, d⟩ := b
    simp
  rw [List.map_congr_left h1, List.map_id]

theorem setdefault_restore_blocks (m : Memory) (x : Nat) (v : Value) (hwf : m.wf) :
    ((m.setdefault x v).setdefault_restore (m.setdefault_backup x).1
      (m.setdefault_backup x).2).blocks = m.blocks := by
  have hb1 : (m.setdefault_backup x).1 = x := rfl
  have hb2 : (m.setdefault_backup x).2 = m.peek x := rfl
  rw [hb1, hb2, Memory.setdefault_restore]
  cases hv : m.peek x with
  | some w =>
      have hsd : m.setdefault x v = m := by
        simp only [Memory.setdefault, hv]
      rw [hsd]
      apply blocksExt _ _ (mkMem_blocksOK _) hwf.1
      intro a
      show (m.poke x (some w)).peek a = m.peek a
      rw [peek_poke, peek_eq_cellAt_values m hwf.1 a]
      by_cases h : a = x
      · rw [if_pos h, h]
        rw [← peek_eq_cellAt_values m hwf.1 x]
        exact hv.symm
      · rw [if_neg h]
  | none =>
      have hsd : m.setdefault x v = m.poke x (some v) := by
        simp only [Memory.setdefault, hv]
      rw [hsd]
      apply blocksExt _ _ (mkMem_blocksOK _) hwf.1
      intro a
      show ((m.poke x (some v)).poke x none).peek a = m.peek a
      rw [peek_poke, peek_eq_cellAt_values m hwf.1 a]
      by_cases h : a = x
      · rw [if_pos h, h]
        have hcx : cellAt m.values x = none := by
          rw [← peek_eq_cellAt_values m hwf.1 x]
          exact hv
        rw [hcx]
      · rw [if_neg h, poke_values_cellAt, if_neg h]

theorem update_restore_blocks (m src : Memory) (hwf : m.wf) (hsrc : src.wf) :
    ((m.update src).update_restore (m.update_backup src)).blocks = m.blocks := by
  rw [Memory.update_restore, Memory.update_backup, List.foldl_cons, List.foldl_nil]
  have hss : src.start ≤ src.endex := by
    have h1 : src.start = src.contentStart := by rw [Memory.start, hsrc.2.1]; rfl
    have h2 : src.endex = src.contentEndex := by rw [Memory.endex, hsrc.2.2]; rfl
    rw [h1, h2]
    exact contentStart_le_contentEndex src hsrc.1
  have hOKu : blocksOKb (m.update src).blocks = true := by
    rw [Memory.update, Memory.writeMem, if_neg (by simp)]
    exact mkMem_blocksOK _
  apply restore_overwrite_blocks m (m.update src) src.start src.endex hwf.1
  intro a ha
  rw [← peek_eq_cellAt_values (m.update src) hOKu a, Memory.update, peek_writeMem_noclear,
    if_neg (by omega)]

theorem extend_restore_blocks (m : Memory) (data : List Value) (off : Nat) (hwf : m.wf) :
    ((m.extend data off).extend_restore (m.extend_backup off)).blocks = m.blocks := by
  have hE : m.extend_backup off = m.contentEndex + off := rfl
  rw [hE, Memory.extend_restore]
  by_cases hd : data = []
  · subst hd
    have hCE : (m.extend [] off).contentEndex = m.contentEndex := by
      apply contentEndex_eq_of_cells (m.extend [] off) (mkMem_blocksOK _)
      · by_cases hnil : m.blocks = []
        · left
          exact contentEndex_nil m hnil
        · right
          have hlc := contentEndex_last_cell m hwf.1 hnil
          have hx : cellAt (m.extend [] off).values (m.contentEndex - 1) =
              cellAt m.values (m.contentEndex - 1) := by
            rw [show m.extend [] off = m.write (m.contentEndex + off) [] from rfl,
              write_values_cellAt, if_neg (by simp only [List.length_nil]; omega)]
          rw [hx]
          exact hlc.1
      · intro a ha
        rw [show m.extend [] off = m.write (m.contentEndex + off) [] from rfl,
          write_values_cellAt, if_neg (by simp only [List.length_nil]; omega)]
        exact cellAt_values_ge_contentEndex m hwf.1 a ha
    rw [hCE]
    apply blocksExt _ _ (mkMem_blocksOK _) hwf.1
    intro a
    show ((m.extend [] off).clear (m.contentEndex + off) m.contentEndex).peek a = m.peek a
    rw [peek_clear, peek_eq_cellAt_values m hwf.1 a]
    rw [if_neg (by omega), show m.extend [] off = m.write (m.contentEndex + off) [] from rfl,
      write_values_cellAt, if_neg (by simp only [List.length_nil]; omega)]
  · have hpos : 0 < data.length := List.length_pos.mpr hd
    have hCE : (m.extend data off).contentEndex = m.contentEndex + off + data.length := by
      apply contentEndex_eq_of_cells (m.extend data off) (mkMem_blocksOK _)
      · right
        have hidx : m.contentEndex + off + data.length - 1
            = m.contentEndex + off + (data.length - 1) := by omega
        rw [hidx, show m.extend data off = m.write (m.contentEndex + off) data from rfl,
          write_values_cellAt, if_pos ⟨by omega, by omega⟩]
        simp
      · intro a ha
        rw [show m.extend data off = m.write (m.contentEndex + off) data from rfl,
          write_values_cellAt, if_neg (by omega)]
        exact cellAt_values_ge_contentEndex m hwf.1 a (by omega)
    rw [hCE]
    apply blocksExt _ _ (mkMem_blocksOK _) hwf.1
    intro a
    show ((m.extend data off).clear (m.contentEndex + off)
      (m.contentEndex + off + data.length)).peek a = m.peek a
    rw [peek_clear, peek_eq_cellAt_values m hwf.1 a]
    by_cases hin : m.contentEndex + off ≤ a ∧ a < m.contentEndex + off + data.length
    · rw [if_pos hin, cellAt_values_ge_contentEndex m hwf.1 a (by omega)]
    · rw [if_neg hin, show m.extend data off = m.write (m.contentEndex + off) data from rfl,
        write_values_cellAt, if_neg (by omega)]

/-- C2: for every backup/restore-paired mutating operation of the engine
(write, fill, flood, insert, delete, clear, crop, reserve, shift, poke,
append, pop, popitem, remove, setdefault, update with a Memory source, and
extend), taking the paired backup before the mutation, applying the mutation
and then restoring the backup yields a Memory equal to the original in both
block content and span, for all valid arguments. -/
theorem claim_C2 (m : Memory) (hwf : m.wf) :
    (∀ a data,
      ((m.write a data).write_restore (m.write_backup a data)).to_blocks = m.to_blocks ∧
      ((m.write a data).write_restore (m.write_backup a data)).span = m.span) ∧
    (∀ s e pat, pat ≠ ([] : List Value) →
      ((m.fill s e pat).fill_restore (m.fill_backup s e)).to_blocks = m.to_blocks ∧
      ((m.fill s e pat).fill_restore (m.fill_backup s e)).span = m.span) ∧
    (∀ s e pat, pat ≠ ([] : List Value) →
      ((m.flood s e pat).flood_restore (m.flood_backup s e)).to_blocks = m.to_blocks ∧
      ((m.flood s e pat).flood_restore (m.flood_backup s e)).span = m.span) ∧
    (∀ a data,
      ((m.insert a data).insert_restore (m.insert_backup a data).1
        (m.insert_backup a data).2).to_blocks = m.to_blocks ∧
      ((m.insert a data).insert_restore (m.insert_backup a data).1
        (m.insert_backup a data).2).span = m.span) ∧
    (∀ s e,
      ((m.delete s e).delete_restore (m.delete_backup s e)).to_blocks = m.to_blocks ∧
      ((m.delete s e).delete_restore (m.delete_backup s e)).span = m.span) ∧
    (∀ s e,
      ((m.clear s e).clear_restore (m.clear_backup s e)).to_blocks = m.to_blocks ∧
      ((m.clear s e).clear_restore (m.clear_backup s e)).span = m.span) ∧
    (∀ s e,
      ((m.crop s e).crop_restore (m.crop_backup s e)).to_blocks = m.to_blocks ∧
      ((m.crop s e).crop_restore (m.crop_backup s e)).span = m.span) ∧
    (∀ a n,
      ((m.reserve a n).reserve_restore (m.reserve_backup a n).1
        (m.reserve_backup a n).2).to_blocks = m.to_blocks ∧
      ((m.reserve a n).reserve_restore (m.reserve_backup a n).1
        (m.reserve_backup a n).2).span = m.span) ∧
    (∀ off,
      ((m.shift off).shift_restore (m.shift_backup off).1
        (m.shift_backup off).2).to_blocks = m.to_blocks ∧
      ((m.shift off).shift_restore (m.shift_backup off).1
        (m.shift_backup off).2).span = m.span) ∧
    (∀ x v,
      ((m.poke x v).poke_restore (m.poke_backup x).1 (m.poke_backup x).2).to_blocks =
        m.to_blocks ∧
      ((m.poke x v).poke_restore (m.poke_backup x).1 (m.poke_backup x).2).span = m.span) ∧
    (∀ v,
      ((m.append v).append_restore).to_blocks = m.to_blocks ∧
      ((m.append v).append_restore).span = m.span) ∧
    (∀ a,
      ((m.pop a).pop_restore (m.pop_backup a).1 (m.pop_backup a).2).to_blocks =
        m.to_blocks ∧
      ((m.pop a).pop_restore (m.pop_backup a).1 (m.pop_backup a).2).span = m.span) ∧
    (m.blocks ≠ [] →
      (m.popitem.popitem_restore (m.popitem_backup).1 (m.popitem_backup).2).to_blocks =
        m.to_blocks ∧
      (m.popitem.popitem_restore (m.popitem_backup).1 (m.popitem_backup).2).span =
        m.span) ∧
    (∀ pat b mm, m.remove_backup pat = some b → m.remove pat = some mm →
      (mm.remove_restore b).to_blocks = m.to_blocks ∧
      (mm.remove_restore b).span = m.span) ∧
    (∀ x v,
      ((m.setdefault x v).setdefault_restore (m.setdefault_backup x).1
        (m.setdefault_backup x).2).to_blocks = m.to_blocks ∧
      ((m.setdefault x v).setdefault_restore (m.setdefault_backup x).1
        (m.setdefault_backup x).2).span = m.span) ∧
    (∀ src, src.wf →
      ((m.update src).update_restore (m.update_backup src)).to_blocks = m.to_blocks ∧
      ((m.update src).update_restore (m.update_backup src)).span = m.span) ∧
    (∀ data off,
      ((m.extend data off).extend_restore (m.extend_backup off)).to_blocks = m.to_blocks ∧
      ((m.extend data off).extend_restore (m.extend_backup off)).span = m.span) := by
  refine ⟨?_, ?_, ?_, ?_, ?_, ?_, ?_, ?_, ?_, ?_, ?_, ?_, ?_, ?_, ?_, ?_, ?_⟩
  · intro a data
    have hb := write_restore_blocks m a data hwf
    refine ⟨hb, span_eq_of_blocks_eq _ _ hb ?_ ?_ hwf.2.1 hwf.2.2⟩
    · rw [Memory.write_restore, Memory.write_backup, List.foldl_cons, List.foldl_nil]
      exact (writeMem_bounds _ _ _ _).1
    · rw [Memory.write_restore, Memory.write_backup, List.foldl_cons, List.foldl_nil]
      exact (writeMem_bounds _ _ _ _).2
  · intro s e pat _
    have hb := fill_restore_blocks m s e pat hwf
    refine ⟨hb, span_eq_of_blocks_eq _ _ hb ?_ ?_ hwf.2.1 hwf.2.2⟩
    · rw [Memory.fill_restore]
      exact (writeMem_bounds _ _ _ _).1
    · rw [Memory.fill_restore]
      exact (writeMem_bounds _ _ _ _).2
  · intro s e pat _
    have hb := flood_restore_blocks m s e pat hwf
    have hbd := foldl_clear_bounds (m.flood_backup s e) (m.flood s e pat) rfl rfl
    exact ⟨hb, span_eq_of_blocks_eq _ _ hb hbd.1 hbd.2 hwf.2.1 hwf.2.2⟩
  · intro a data
    have hb := insert_restore_blocks m a data hwf
    refine ⟨hb, span_eq_of_blocks_eq _ _ hb ?_ ?_ hwf.2.1 hwf.2.2⟩
    · rw [Memory.insert_restore]
      exact (writeMem_bounds _ _ _ _).1
    · rw [Memory.insert_restore]
      exact (writeMem_bounds _ _ _ _).2
  · intro s e
    have hb := delete_restore_blocks m s e hwf
    refine ⟨hb, span_eq_of_blocks_eq _ _ hb ?_ ?_ hwf.2.1 hwf.2.2⟩
    · rw [Memory.delete_restore]
      exact (writeMem_bounds _ _ _ _).1
    · rw [Memory.delete_restore]
      exact (writeMem_bounds _ _ _ _).2
  · intro s e
    have hb := clear_restore_blocks m s e hwf
    refine ⟨hb, span_eq_of_blocks_eq _ _ hb ?_ ?_ hwf.2.1 hwf.2.2⟩
    · rw [Memory.clear_restore]
      exact (writeMem_bounds _ _ _ _).1
    · rw [Memory.clear_restore]
      exact (writeMem_bounds _ _ _ _).2
  · intro s e
    have hb := crop_restore_blocks m s e hwf
    refine ⟨hb, span_eq_of_blocks_eq _ _ hb ?_ ?_ hwf.2.1 hwf.2.2⟩
    · rw [Memory.crop_restore]
      exact (writeMem_bounds _ _ _ _).1
    · rw [Memory.crop_restore]
      exact (writeMem_bounds _ _ _ _).2
  · intro a n
    have hb := reserve_restore_blocks m a n hwf
    refine ⟨hb, span_eq_of_blocks_eq _ _ hb ?_ ?_ hwf.2.1 hwf.2.2⟩
    · rw [Memory.reserve_restore]
      exact (writeMem_bounds _ _ _ _).1
    · rw [Memory.reserve_restore]
      exact (writeMem_bounds _ _ _ _).2
  · intro off
    have hb := shift_restore_blocks m off
    exact ⟨hb, span_eq_of_blocks_eq _ _ hb hwf.2.1 hwf.2.2 hwf.2.1 hwf.2.2⟩
  · intro x v
    have hb := poke_restore_blocks m x v hwf
    exact ⟨hb, span_eq_of_blocks_eq _ _ hb rfl rfl hwf.2.1 hwf.2.2⟩
  · intro v
    have hb := append_restore_blocks m v hwf
    exact ⟨hb, span_eq_of_blocks_eq _ _ hb rfl rfl hwf.2.1 hwf.2.2⟩
  · intro a
    have hb := pop_restore_blocks m a hwf
    refine ⟨hb, span_eq_of_blocks_eq _ _ hb ?_ ?_ hwf.2.1 hwf.2.2⟩
    · rw [show (m.pop_backup a).2 = m.peek a from rfl]
      cases hv : m.peek a with
      | none => rfl
      | some w => rfl
    · rw [show (m.pop_backup a).2 = m.peek a from rfl]
      cases hv : m.peek a with
      | none => rfl
      | some w => rfl
  · intro hne
    have hb := popitem_restore_blocks m hwf
    exact ⟨hb, span_eq_of_blocks_eq _ _ hb rfl rfl hwf.2.1 hwf.2.2⟩
  · intro pat b mm hb hm
    cases hf : m.find pat with
    | none =>
        rw [Memory.remove_backup, hf] at hb
        simp at hb
    | some a0 =>
        rw [Memory.remove_backup, hf, Option.map_some'] at hb
        rw [Memory.remove, hf, Option.map_some'] at hm
        have hbb := Option.some.inj hb
        have hmm := Option.some.inj hm
        subst hbb hmm
        have hcore := remove_restore_core m a0 pat.length hwf
        refine ⟨hcore, span_eq_of_blocks_eq _ _ hcore ?_ ?_ hwf.2.1 hwf.2.2⟩
        · rw [Memory.remove_restore]
          exact (writeMem_bounds _ _ _ _).1
        · rw [Memory.remove_restore]
          exact (writeMem_bounds _ _ _ _).2
  · intro x v
    have hb := setdefault_restore_blocks m x v hwf
    exact ⟨hb, span_eq_of_blocks_eq _ _ hb rfl rfl hwf.2.1 hwf.2.2⟩
  · intro src hsrc
    have hb := update_restore_blocks m src hwf hsrc
    refine ⟨hb, span_eq_of_blocks_eq _ _ hb ?_ ?_ hwf.2.1 hwf.2.2⟩
    · rw [Memory.update_restore, Memory.update_backup, List.foldl_cons, List.foldl_nil]
      exact (writeMem_bounds _ _ _ _).1
    · rw [Memory.update_restore, Memory.update_backup, List.foldl_cons, List.foldl_nil]
      exact (writeMem_bounds _ _ _ _).2
  · intro data off
    have hb := extend_restore_blocks m data off hwf
    exact ⟨hb, span_eq_of_blocks_eq _ _ hb rfl rfl hwf.2.1 hwf.2.2⟩

/-- Witness for C2: every one of the seventeen backup/restore pairs exercised
at a concrete memory, discharging each hypothesis. -/
theorem claim_C2_witness :
    Memory.wf (Memory.from_blocks [(2, [50, 51]), (6, [56])]) ∧
    ([9] : List Value) ≠ [] ∧
    (Memory.from_blocks [(2, [50, 51]), (6, [56])]).blocks ≠ [] ∧
    Memory.wf (Memory.from_blocks [(1, [5])]) ∧
    (Memory.from_blocks [(2, [50, 51]), (6, [56])]).remove_backup [51] =
      some ((Memory.from_blocks [(2, [50, 51]), (6, [56])]).extract 3 4) ∧
    (Memory.from_blocks [(2, [50, 51]), (6, [56])]).remove [51] =
      some ((Memory.from_blocks [(2, [50, 51]), (6, [56])]).delete 3 4) ∧
    (((Memory.from_blocks [(2, [50, 51]), (6, [56])]).write 1 [7, 8]).write_restore
      ((Memory.from_blocks [(2, [50, 51]), (6, [56])]).write_backup 1 [7, 8])).to_blocks =
      (Memory.from_blocks [(2, [50, 51]), (6, [56])]).to_blocks ∧
    (((Memory.from_blocks [(2, [50, 51]), (6, [56])]).fill 1 5 [9]).fill_restore
      ((Memory.from_blocks [(2, [50, 51]), (6, [56])]).fill_backup 1 5)).to_blocks =
      (Memory.from_blocks [(2, [50, 51]), (6, [56])]).to_blocks ∧
    (((Memory.from_blocks [(2, [50, 51]), (6, [56])]).flood 1 5 [9]).flood_restore
      ((Memory.from_blocks [(2, [50, 51]), (6, [56])]).flood_backup 1 5)).to_blocks =
      (Memory.from_blocks [(2, [50, 51]), (6, [56])]).to_blocks ∧
    (((Memory.from_blocks [(2, [50, 51]), (6, [56])]).insert 3 [7]).insert_restore
      ((Memory.from_blocks [(2, [50, 51]), (6, [56])]).insert_backup 3 [7]).1
      ((Memory.from_blocks [(2, [50, 51]), (6, [56])]).insert_backup 3 [7]).2).to_blocks =
      (Memory.from_blocks [(2, [50, 51]), (6, [56])]).to_blocks ∧
    (((Memory.from_blocks [(2, [50, 51]), (6, [56])]).delete 2 4).delete_restore
      ((Memory.from_blocks [(2, [50, 51]), (6, [56])]).delete_backup 2 4)).to_blocks =
      (Memory.from_blocks [(2, [50, 51]), (6, [56])]).to_blocks ∧
    (((Memory.from_blocks [(2, [50, 51]), (6, [56])]).clear 2 7).clear_restore
      ((Memory.from_blocks [(2, [50, 51]), (6, [56])]).clear_backup 2 7)).to_blocks =
      (Memory.from_blocks [(2, [50, 51]), (6, [56])]).to_blocks ∧
    (((Memory.from_blocks [(2, [50, 51]), (6, [56])]).crop 2 7).crop_restore
      ((Memory.from_blocks [(2, [50, 51]), (6, [56])]).crop_backup 2 7)).to_blocks =
      (Memory.from_blocks [(2, [50, 51]), (6, [56])]).to_blocks ∧
    (((Memory.from_blocks [(2, [50, 51]), (6, [56])]).reserve 3 2).reserve_restore
      ((Memory.from_blocks [(2, [50, 51]), (6, [56])]).reserve_backup 3 2).1
      ((Memory.from_blocks [(2, [50, 51]), (6, [56])]).reserve_backup 3 2).2).to_blocks =
      (Memory.from_blocks [(2, [50, 51]), (6, [56])]).to_blocks ∧
    (((Memory.from_blocks [(2, [50, 51]), (6, [56])]).shift 4).shift_restore
      ((Memory.from_blocks [(2, [50, 51]), (6, [56])]).shift_backup 4).1
      ((Memory.from_blocks [(2, [50, 51]), (6, [56])]).shift_backup 4).2).to_blocks =
      (Memory.from_blocks [(2, [50, 51]), (6, [56])]).to_blocks ∧
    (((Memory.from_blocks [(2, [50, 51]), (6, [56])]).poke 0 (some 5)).poke_restore
      ((Memory.from_blocks [(2, [50, 51]), (6, [56])]).poke_backup 0).1
      ((Memory.from_blocks [(2, [50, 51]), (6, [56])]).poke_backup 0).2).to_blocks =
      (Memory.from_blocks [(2, [50, 51]), (6, [56])]).to_blocks ∧
    (((Memory.from_blocks [(2, [50, 51]), (6, [56])]).append 9).append_restore).to_blocks =
      (Memory.from_blocks [(2, [50, 51]), (6, [56])]).to_blocks ∧
    (((Memory.from_blocks [(2, [50, 51]), (6, [56])]).pop 3).pop_restore
      ((Memory.from_blocks [(2, [50, 51]), (6, [56])]).pop_backup 3).1
      ((Memory.from_blocks [(2, [50, 51]), (6, [56])]).pop_backup 3).2).to_blocks =
      (Memory.from_blocks [(2, [50, 51]), (6, [56])]).to_blocks ∧
    ((Memory.from_blocks [(2, [50, 51]), (6, [56])]).popitem.popitem_restore
      ((Memory.from_blocks [(2, [50, 51]), (6, [56])]).popitem_backup).1
      ((Memory.from_blocks [(2, [50, 51]), (6, [56])]).popitem_backup).2).to_blocks =
      (Memory.from_blocks [(2, [50, 51]), (6, [56])]).to_blocks ∧
    (((Memory.from_blocks [(2, [50, 51]), (6, [56])]).delete 3 4).remove_restore
      ((Memory.from_blocks [(2, [50, 51]), (6, [56])]).extract 3 4)).to_blocks =
      (Memory.from_blocks [(2, [50, 51]), (6, [56])]).to_blocks ∧
    (((Memory.from_blocks [(2, [50, 51]), (6, [56])]).setdefault 4 9).setdefault_restore
      ((Memory.from_blocks [(2, [50, 51]), (6, [56])]).setdefault_backup 4).1
      ((Memory.from_blocks [(2, [50, 51]), (6, [56])]).setdefault_backup 4).2).to_blocks =
      (Memory.from_blocks [(2, [50, 51]), (6, [56])]).to_blocks ∧
    (((Memory.from_blocks [(2, [50, 51]), (6, [56])]).update
      (Memory.from_blocks [(1, [5])])).update_restore
      ((Memory.from_blocks [(2, [50, 51]), (6, [56])]).update_backup
        (Memory.from_blocks [(1, [5])]))).to_blocks =
      (Memory.from_blocks [(2, [50, 51]), (6, [56])]).to_blocks ∧
    (((Memory.from_blocks [(2, [50, 51]), (6, [56])]).extend [7] 2).extend_restore
      ((Memory.from_blocks [(2, [50, 51]), (6, [56])]).extend_backup 2)).to_blocks =
      (Memory.from_blocks [(2, [50, 51]), (6, [56])]).to_blocks := by
  have h := claim_C2 (Memory.from_blocks [(2, [50, 51]), (6, [56])]) (by decide)
  obtain ⟨h1, h2, h3, h4, h5, h6, h7, h8, h9, h10, h11, h12, h13, h14, h15, h16, h17⟩ := h
  refine ⟨by decide, by decide, by decide, by decide, by decide, by decide,
    ?_, ?_, ?_, ?_, ?_, ?_, ?_, ?_, ?_, ?_, ?_, ?_, ?_, ?_, ?_, ?_, ?_⟩
  · exact (h1 1 [7, 8]).1
  · exact (h2 1 5 [9] (by decide)).1
  · exact (h3 1 5 [9] (by decide)).1
  · exact (h4 3 [7]).1
  · exact (h5 2 4).1
  · exact (h6 2 7).1
  · exact (h7 2 7).1
  · exact (h8 3 2).1
  · exact (h9 4).1
  · exact (h10 0 (some 5)).1
  · exact (h11 9).1
  · exact (h12 3).1
  · exact (h13 (by decide)).1
  · exact (h14 [51] ((Memory.from_blocks [(2, [50, 51]), (6, [56])]).extract 3 4)
      ((Memory.from_blocks [(2, [50, 51]), (6, [56])]).delete 3 4)
      (by decide) (by decide)).1
  · exact (h15 4 9).1
  · exact (h16 (Memory.from_blocks [(1, [5])]) (by decide)).1
  · exact (h17 [7] 2).1

/-- C8 counterexample: `write(start, <cut result>)` does not restore the
original when `start > 0`, because with a Memory source the write address is
an offset added to the source's own addresses (as `test_cut_template` shows,
the restoring call is `write(0, cut)`): cutting `[5, 8)` out of
`[[5, b'ABC']]` and writing the cut result back at address 5 lands the data at
address 10. -/
theorem claim_C8_counterexample :
    (((Memory.from_blocks [(5, [65, 66, 67])]).cut 5 8).2.writeMem 5
      ((Memory.from_blocks [(5, [65, 66, 67])]).cut 5 8).1 false).to_blocks =
      [(10, [65, 66, 67])] ∧
    (((Memory.from_blocks [(5, [65, 66, 67])]).cut 5 8).2.writeMem 5
      ((Memory.from_blocks [(5, [65, 66, 67])]).cut 5 8).1 false).to_blocks ≠
      (Memory.from_blocks [(5, [65, 66, 67])]).to_blocks := by
  constructor <;> decide

/-- C8 (amended): the cut result equals what extract would have returned on
the original, and `cut(start, endex)` followed by `write(0, <the cut result>)`
(offset 0, since a Memory source carries its own addresses) restores the
original content and span. -/
theorem claim_C8 (m : Memory) (s e : Nat) (hwf : m.wf) :
    (m.cut s e).1 = m.extract s e ∧
    ((m.cut s e).2.writeMem 0 (m.cut s e).1 false).to_blocks = m.to_blocks ∧
    ((m.cut s e).2.writeMem 0 (m.cut s e).1 false).span = m.span := by
  have hblocks : ((m.cut s e).2.writeMem 0 (m.cut s e).1 false).blocks = m.blocks := by
    have hOKres : blocksOKb ((m.cut s e).2.writeMem 0 (m.cut s e).1 false).blocks
        = true := by
      rw [Memory.writeMem, if_neg (by simp)]
      exact mkMem_blocksOK _
    apply blocksExt _ _ hOKres hwf.1
    intro a
    show ((m.cut s e).2.writeMem 0 (m.cut s e).1 false).peek a = m.peek a
    rw [Memory.cut, peek_writeMem_noclear, extract_start, extract_endex, max_sub_self]
    by_cases hin : 0 + s ≤ a ∧ a < 0 + s + (e - s)
    · rw [if_pos hin]
      have hidx : s + (a - (0 + s)) = a := by omega
      rw [hidx, extract_values_cellAt, if_pos ⟨by omega, by omega⟩,
        clear_values_cellAt, if_pos ⟨by omega, by omega⟩,
        ← peek_eq_cellAt_values m hwf.1 a]
      cases m.peek a <;> rfl
    · rw [if_neg hin, clear_values_cellAt, if_neg (by omega),
        ← peek_eq_cellAt_values m hwf.1 a]
  refine ⟨rfl, hblocks, span_eq_of_blocks_eq _ _ hblocks ?_ ?_ hwf.2.1 hwf.2.2⟩
  · rw [Memory.writeMem, if_neg (by simp)]; rfl
  · rw [Memory.writeMem, if_neg (by simp)]; rfl

/-- Witness for C8 at a concrete memory and range. -/
theorem claim_C8_witness :
    Memory.wf (Memory.from_blocks [(1, [65, 66, 67, 68]), (6, [36]), (8, [120, 121, 122])]) ∧
    (((Memory.from_blocks [(1, [65, 66, 67, 68]), (6, [36]),
        (8, [120, 121, 122])]).cut 2 9).2.writeMem 0
      ((Memory.from_blocks [(1, [65, 66, 67, 68]), (6, [36]),
        (8, [120, 121, 122])]).cut 2 9).1 false).to_blocks =
      (Memory.from_blocks [(1, [65, 66, 67, 68]), (6, [36]),
        (8, [120, 121, 122])]).to_blocks := by
  refine ⟨by decide, ?_⟩
  exact (claim_C8 (Memory.from_blocks [(1, [65, 66, 67, 68]), (6, [36]),
    (8, [120, 121, 122])]) 2 9 (by decide)).2.1

/-- C1: every Memory built from a valid block list keeps all structural
invariants (no zero-length block, strictly separated and therefore strictly
increasing starts, no overlapping or touching-unmerged pair) under any
sequence of the mutating operations with valid arguments, and `validate()`
reports no error afterwards. -/
theorem claim_C1 (ops : List Op) (bl : List Block) (hOK : blocksOKb bl = true)
    (_hargs : seqOKb (Memory.from_blocks bl) ops = true) :
    blocksOKb ((ops.foldl Memory.applyOp (Memory.from_blocks bl)).blocks) = true ∧
    (ops.foldl Memory.applyOp (Memory.from_blocks bl)).validate = none := by
  have hwf := foldl_applyOp_wf ops (Memory.from_blocks bl) ⟨hOK, rfl, rfl⟩
  exact ⟨hwf.1, validate_none_of_wf _ hwf⟩

/-- Witness for C1 at a concrete memory and operation sequence. -/
theorem claim_C1_witness :
    blocksOKb [(2, [50, 51, 52]), (8, [56, 57, 65])] = true ∧
    seqOKb (Memory.from_blocks [(2, [50, 51, 52]), (8, [56, 57, 65])])
      [Op.fill 3 9 [60], Op.poke 1 (some 7), Op.delete 4 6, Op.insert 2 [9, 9],
        Op.shift 1, Op.popitem] = true ∧
    blocksOKb (([Op.fill 3 9 [60], Op.poke 1 (some 7), Op.delete 4 6, Op.insert 2 [9, 9],
        Op.shift 1, Op.popitem].foldl Memory.applyOp
        (Memory.from_blocks [(2, [50, 51, 52]), (8, [56, 57, 65])])).blocks) = true ∧
    ([Op.fill 3 9 [60], Op.poke 1 (some 7), Op.delete 4 6, Op.insert 2 [9, 9],
        Op.shift 1, Op.popitem].foldl Memory.applyOp
        (Memory.from_blocks [(2, [50, 51, 52]), (8, [56, 57, 65])])).validate = none := by
  refine ⟨by decide, by decide, ?_⟩
  have h := claim_C1
    [Op.fill 3 9 [60], Op.poke 1 (some 7), Op.delete 4 6, Op.insert 2 [9, 9],
      Op.shift 1, Op.popitem]
    [(2, [50, 51, 52]), (8, [56, 57, 65])] (by decide) (by decide)
  exact ⟨h.1, h.2⟩

/-- C4: flood writes the cyclically repeated pattern only into addresses that
were gaps within `[start, endex)`, leaving every already-defined byte
unchanged; in particular the doctest
`Memory.from_blocks([[1,b'ABC'],[6,b'xyz']]).flood(3, 7, b'123')` yields
`to_blocks() == [[1, b'ABC23xyz']]` (only the gap `[4, 6)` is filled, the
pattern indexed by offset from `start`). -/
theorem claim_C4 :
    (∀ (m : Memory) (s e : Nat) (pat : List Value) (a : Nat), m.wf → pat ≠ [] →
      (m.flood s e pat).peek a =
        if s ≤ a ∧ a < e ∧ m.peek a = none
        then some (pat.getD ((a - s) % pat.length) 0)
        else m.peek a) ∧
    ((Memory.from_blocks [(1, [65, 66, 67]), (6, [120, 121, 122])]).flood 3 7
      [49, 50, 51]).to_blocks = [(1, [65, 66, 67, 50, 51, 120, 121, 122])] := by
  constructor
  · intro m s e pat a hwf _hpat
    rw [peek_flood, peek_eq_cellAt_values m hwf.1 a]
  · decide

/-- Witness for C4: flooding concrete gaps. -/
theorem claim_C4_witness :
    Memory.wf (Memory.from_blocks [(1, [65]), (4, [66])]) ∧
    ([9] : List Value) ≠ [] ∧
    ((Memory.from_blocks [(1, [65]), (4, [66])]).flood 2 4 [9]).peek 2 = some 9 := by
  refine ⟨by decide, by decide, ?_⟩
  rw [claim_C4.1 (Memory.from_blocks [(1, [65]), (4, [66])]) 2 4 [9] 2 (by decide) (by decide)]
  decide

/-- C5 counterexample: on the block list the claim names
(`[[1,b'ABCD'],[6,b'$'],[8,b'xyz']]`), `fill(3, 7, b'123')` leaves the gap at
address 7 untouched, so the surviving blocks do not merge and the result is
`[[1, b'AB1231'], [8, b'xyz']]`, not the claimed `[[1, b'AB1231yz']]`. -/
theorem claim_C5_counterexample :
    ((Memory.from_blocks [(1, [65, 66, 67, 68]), (6, [36]), (8, [120, 121, 122])]).fill 3 7
      [49, 50, 51]).to_blocks = [(1, [65, 66, 49, 50, 51, 49]), (8, [120, 121, 122])] ∧
    ((Memory.from_blocks [(1, [65, 66, 67, 68]), (6, [36]), (8, [120, 121, 122])]).fill 3 7
      [49, 50, 51]).to_blocks ≠ [(1, [65, 66, 49, 50, 51, 49, 121, 122])] := by
  constructor <;> decide

/-- C5 (amended): the fill doctest starts from
`Memory.from_blocks([[1,b'ABC'],[6,b'xyz']])`; `fill(3, 7, b'123')` overwrites
`[3, 7)` with the cyclically repeated pattern and the blocks on either side
merge through the filled gap, giving `to_blocks() == [[1, b'AB1231yz']]`. -/
theorem claim_C5 :
    ((Memory.from_blocks [(1, [65, 66, 67]), (6, [120, 121, 122])]).fill 3 7
      [49, 50, 51]).to_blocks = [(1, [65, 66, 49, 50, 51, 49, 121, 122])] := by
  decide

end CBytesparse
